import Mathlib

/-!
# Gossip message delegate (package cluster, delegate.go)

A shallow embedding of the messageDelegate methods NodeMeta, NotifyMsg,
GetBroadcasts and MergeRemoteState.  Code that lives outside delegate.go
(the codec, the operate handlers, the draining of a memberlist queue, the
type tag constants) is taken as a parameter; every call the delegate makes
is recorded, in program order, in a call log next to the state it produces.
-/

namespace cluster

/-- A Go byte. -/
abbrev Byte := Fin 256

/-- A Go byte slice, by value. -/
abbrev Bytes := List Byte

/-- The logicalTime type: an unsigned 64-bit counter value. -/
abbrev logicalTime := Nat

/-- Number of values of an unsigned 64-bit integer. -/
def u64Size : Nat := 18446744073709551616

/-- Unsigned 64-bit subtraction as Go computes it (wraps modulo 2^64). -/
def subU64 (a b : Nat) : Nat := (a % u64Size + u64Size - b % u64Size) % u64Size

/-- Go int (64-bit, signed) result of a mathematical integer: wraps modulo 2^64
into the range from -2^63 to 2^63 - 1. -/
def wrapInt (x : Int) : Int :=
  (x + 9223372036854775808) % 18446744073709551616 - 9223372036854775808

/-- The messageMemberJoin payload (fields read by delegate.go). -/
structure messageMemberJoin where
  NodeName : String
  JoinTime : logicalTime
deriving DecidableEq, Repr

/-- The messageMemberLeave payload (fields read by delegate.go). -/
structure messageMemberLeave where
  NodeName : String
  LeaveTime : logicalTime
deriving DecidableEq, Repr

/-- The messageRequest payload: the fields delegate.go reads, the remaining
fields kept as uninterpreted bytes. -/
structure messageRequest where
  RequestNodeName : String
  RequestTime : logicalTime
  other : Bytes
deriving DecidableEq, Repr

/-- The messageResponse payload: the fields delegate.go reads, the remaining
fields kept as uninterpreted bytes. -/
structure messageResponse where
  ResponseNodeName : String
  RequestTime : logicalTime
  other : Bytes
deriving DecidableEq, Repr

/-- The messageRelay payload: the field delegate.go reads, the remaining
fields kept as uninterpreted bytes. -/
structure messageRelay where
  SourceNodeName : String
  other : Bytes
deriving DecidableEq, Repr

/-- The messagePushPull payload.  The Go map MemberLastMessageTimes is the list
of its entries in the order a range statement visits them (any order is
possible in Go, keys are distinct); LeftMemberNames is a slice. -/
structure messagePushPull where
  MemberClockTime : logicalTime
  RequestClockTime : logicalTime
  MemberLastMessageTimes : List (String × logicalTime)
  LeftMemberNames : List String
deriving DecidableEq, Repr

/-- Indexing a Go map of logical times: the zero value when the key is absent. -/
def mapIndex (m : List (String × logicalTime)) (name : String) : logicalTime :=
  match m.find? (fun e => e.1 == name) with
  | some e => e.2
  | none => 0

/-- The message type tag constants (declared outside delegate.go).  The five
tags of the switch in NotifyMsg are pairwise different, as Go requires of the
constant cases of one switch. -/
structure MessageTypes where
  memberJoinMessage : Byte
  memberLeaveMessage : Byte
  requestMessage : Byte
  responseMessage : Byte
  messageRelayMessage : Byte
  statePushPullMessage : Byte
  distinct : [memberJoinMessage, memberLeaveMessage, requestMessage,
    responseMessage, messageRelayMessage].Nodup

/-- The codec (Unpack at each payload type, PackNodeTags), declared outside
delegate.go: none stands for a returned error. -/
structure Codec (Tags : Type) where
  unpackMemberJoin : Bytes → Option messageMemberJoin
  unpackMemberLeave : Bytes → Option messageMemberLeave
  unpackRequest : Bytes → Option messageRequest
  unpackResponse : Bytes → Option messageResponse
  unpackRelay : Bytes → Option messageRelay
  unpackPushPull : Bytes → Option messagePushPull
  PackNodeTags : Tags → Option Bytes

/-- The two broadcast queues of a Cluster. -/
inductive QueueId where
  | memberMessageSendQueue
  | requestMessageSendQueue
deriving DecidableEq, Repr

/-- The part of a Cluster that the operate handlers work on: both logical
clocks and the handler-owned state (member table, left members, request
bookkeeping) of type σ. -/
structure Core (σ : Type) where
  memberClock : logicalTime
  requestClock : logicalTime
  app : σ
deriving DecidableEq, Repr

/-- A Cluster as the delegate sees it: its configured node tags, the core and
the pending contents of the two broadcast queues, oldest first. -/
structure Cluster (Tags σ : Type) where
  NodeTags : Tags
  core : Core σ
  memberMessageSendQueue : List Bytes
  requestMessageSendQueue : List Bytes
deriving DecidableEq, Repr

/-- The Cluster methods called by the delegate (defined outside delegate.go):
each takes the decoded message and the core, and returns its boolean result
with the core it leaves behind. -/
structure Handlers (σ : Type) where
  operateNodeJoin : messageMemberJoin → Core σ → Bool × Core σ
  operateNodeLeave : messageMemberLeave → Core σ → Bool × Core σ
  operateRequest : messageRequest → Core σ → Bool × Core σ
  operateResponse : messageResponse → Core σ → Bool × Core σ
  operateRelay : messageRelay → Core σ → Bool × Core σ

/-- One call made by a delegate method, with its arguments. -/
inductive Call where
  | memberClockUpdate (t : logicalTime)
  | requestClockUpdate (t : logicalTime)
  | operateNodeJoin (msg : messageMemberJoin)
  | operateNodeLeave (msg : messageMemberLeave)
  | operateRequest (msg : messageRequest)
  | operateResponse (msg : messageResponse)
  | operateRelay (msg : messageRelay)
  | fanoutBuffer (q : Option QueueId) (dup : Bytes)
  | queueGetBroadcasts (q : QueueId) (overhead limit : Int)
deriving DecidableEq, Repr

/-- Modelled from the spec: logicalClock.Update, whose source is absent;
witnessing a clock with an observed value advances it to the larger of the
two and never decreases it. -/
def clockUpdate (current observed : logicalTime) : logicalTime := max current observed

/-- Modelled from the spec: fanoutBuffer, whose source is absent; the buffer is
handed to the selected broadcast queue, and with the nil queue (none) no queue
receives it. -/
def fanoutBuffer {Tags σ : Type} (q : Option QueueId) (dup : Bytes) (c : Cluster Tags σ) :
    Cluster Tags σ :=
  match q with
  | some QueueId.memberMessageSendQueue =>
      { c with memberMessageSendQueue := c.memberMessageSendQueue ++ [dup] }
  | some QueueId.requestMessageSendQueue =>
      { c with requestMessageSendQueue := c.requestMessageSendQueue ++ [dup] }
  | none => c

/-- Modelled from the spec: common.StrInSlice, whose source is absent; whether
the string occurs in the slice. -/
def StrInSlice (s : String) (l : List String) : Bool := l.contains s

/-- The Go builtin make([]byte, n): n zero bytes. -/
def makeBytes (n : Nat) : Bytes := List.replicate n 0

/-- The Go builtin copy(dst, src): the destination after the call, its first
min(len dst, len src) bytes overwritten by those of src. -/
def copyBytes (dst src : Bytes) : Bytes :=
  src.take (min dst.length src.length) ++ dst.drop (min dst.length src.length)

/-- Method messageDelegate.NodeMeta: the packed node tags, or an empty slice
when packing fails or the packed tags exceed the limit (a Go int). -/
def NodeMeta {Tags σ : Type} (codec : Codec Tags) (c : Cluster Tags σ) (limit : Int) : Bytes :=
  match codec.PackNodeTags c.NodeTags with
  | none => makeBytes 0
  | some nodeTags =>
      if (nodeTags.length : Int) > limit then makeBytes 0
      else nodeTags

/-- The switch of NotifyMsg on the type tag: the messageQueue and forward
variables after the switch, the core the handler left, and the handler call
made (none when the payload failed to decode or the tag is unknown). -/
def dispatch {Tags σ : Type} (T : MessageTypes) (codec : Codec Tags) (H : Handlers σ)
    (msgType : Byte) (payload : Bytes) (core : Core σ) :
    Option QueueId × Bool × Core σ × List Call :=
  if msgType = T.memberJoinMessage then
    match codec.unpackMemberJoin payload with
    | none => (none, false, core, [])
    | some msg =>
        let r := H.operateNodeJoin msg core
        (some QueueId.memberMessageSendQueue, r.1, r.2, [Call.operateNodeJoin msg])
  else if msgType = T.memberLeaveMessage then
    match codec.unpackMemberLeave payload with
    | none => (none, false, core, [])
    | some msg =>
        let r := H.operateNodeLeave msg core
        (some QueueId.memberMessageSendQueue, r.1, r.2, [Call.operateNodeLeave msg])
  else if msgType = T.requestMessage then
    match codec.unpackRequest payload with
    | none => (none, false, core, [])
    | some msg =>
        let r := H.operateRequest msg core
        (some QueueId.requestMessageSendQueue, r.1, r.2, [Call.operateRequest msg])
  else if msgType = T.responseMessage then
    match codec.unpackResponse payload with
    | none => (none, false, core, [])
    | some msg =>
        let r := H.operateResponse msg core
        (none, r.1, r.2, [Call.operateResponse msg])
  else if msgType = T.messageRelayMessage then
    match codec.unpackRelay payload with
    | none => (none, false, core, [])
    | some msg =>
        let r := H.operateRelay msg core
        (none, r.1, r.2, [Call.operateRelay msg])
  else (none, false, core, [])

/-- Method messageDelegate.NotifyMsg: the cluster after the call and the calls
made, in order. -/
def NotifyMsg {Tags σ : Type} (T : MessageTypes) (codec : Codec Tags) (H : Handlers σ)
    (buff : Bytes) (c : Cluster Tags σ) : Cluster Tags σ × List Call :=
  match buff with
  | [] => (c, [])
  | msgType :: payload =>
      let d := dispatch T codec H msgType payload c.core
      let c1 := { c with core := d.2.2.1 }
      if d.2.1 then
        let dup := copyBytes (makeBytes buff.length) buff
        (fanoutBuffer d.1 dup c1, d.2.2.2 ++ [Call.fanoutBuffer d.1 dup])
      else (c1, d.2.2.2)

/-- The size computed by GetBroadcasts in Go int arithmetic: overhead times the
number of messages, then the length of each message added in turn. -/
def broadcastSize (overhead : Int) (msgList : List Bytes) : Int :=
  msgList.foldl (fun size msg => wrapInt (size + (msg.length : Int)))
    (wrapInt (overhead * (msgList.length : Int)))

/-- Method messageDelegate.GetBroadcasts.  The parameter drain stands for
TransmitLimitedQueue.GetBroadcasts of the memberlist library: from the pending
contents, the overhead and the limit it gives the messages to send and the
contents left pending. -/
def GetBroadcasts {Tags σ : Type} (drain : List Bytes → Int → Int → List Bytes × List Bytes)
    (overhead limit : Int) (c : Cluster Tags σ) : List Bytes × Cluster Tags σ × List Call :=
  let m := drain c.memberMessageSendQueue overhead limit
  let size := broadcastSize overhead m.1
  let r := drain c.requestMessageSendQueue overhead (wrapInt (limit - size))
  (m.1 ++ r.1,
   { c with memberMessageSendQueue := m.2, requestMessageSendQueue := r.2 },
   [Call.queueGetBroadcasts QueueId.memberMessageSendQueue overhead limit,
    Call.queueGetBroadcasts QueueId.requestMessageSendQueue overhead (wrapInt (limit - size))])

/-- The first loop of MergeRemoteState: for each left member name in order,
the name is appended to leftMemberNames and operateNodeLeave is called with
the name and its entry of the last message time map. -/
def mergeLeaves {σ : Type} (H : Handlers σ) (times : List (String × logicalTime)) :
    List String → List String × Core σ × List Call → List String × Core σ × List Call
  | [], acc => acc
  | name :: rest, (leftMemberNames, core, log) =>
      let msg : messageMemberLeave := { LeaveTime := mapIndex times name, NodeName := name }
      mergeLeaves H times rest
        (leftMemberNames ++ [name], (H.operateNodeLeave msg core).2,
         log ++ [Call.operateNodeLeave msg])

/-- The second loop of MergeRemoteState: for each entry of the last message
time map whose name is not in leftMemberNames, operateNodeJoin is called. -/
def mergeJoins {σ : Type} (H : Handlers σ) (leftMemberNames : List String) :
    List (String × logicalTime) → Core σ × List Call → Core σ × List Call
  | [], acc => acc
  | (name, lastMessageTime) :: rest, (core, log) =>
      if !StrInSlice name leftMemberNames then
        let msg : messageMemberJoin := { JoinTime := lastMessageTime, NodeName := name }
        mergeJoins H leftMemberNames rest
          ((H.operateNodeJoin msg core).2, log ++ [Call.operateNodeJoin msg])
      else mergeJoins H leftMemberNames rest (core, log)

/-- Method messageDelegate.MergeRemoteState: the cluster after the call and the
calls made, in order.  A tag other than statePushPullMessage is only logged as
an error by the source; execution continues with the decoding. -/
def MergeRemoteState {Tags σ : Type} (T : MessageTypes) (codec : Codec Tags) (H : Handlers σ)
    (buff : Bytes) (isJoin : Bool) (c : Cluster Tags σ) : Cluster Tags σ × List Call :=
  match buff with
  | [] => (c, [])
  | _msgType :: payload =>
      -- source: if msgType != statePushPullMessage, logger.Errorf only; no return follows,
      -- so the comparison with T.statePushPullMessage decides nothing below
      match codec.unpackPushPull payload with
      | none => (c, [])
      | some msg =>
          let s1 : Core σ × List Call :=
            if msg.MemberClockTime > 0 then
              ({ c.core with memberClock :=
                    clockUpdate c.core.memberClock (subU64 msg.MemberClockTime 1) },
               [Call.memberClockUpdate (subU64 msg.MemberClockTime 1)])
            else (c.core, [])
          let s2 : Core σ × List Call :=
            if msg.RequestClockTime > 0 then
              ({ s1.1 with requestClock :=
                    clockUpdate s1.1.requestClock (subU64 msg.RequestClockTime 1) },
               s1.2 ++ [Call.requestClockUpdate (subU64 msg.RequestClockTime 1)])
            else s1
          let s3 := mergeLeaves H msg.MemberLastMessageTimes msg.LeftMemberNames ([], s2.1, s2.2)
          let s4 := mergeJoins H s3.1 msg.MemberLastMessageTimes (s3.2.1, s3.2.2)
          ({ c with core := s4.1 }, s4.2)

/-- The bytes consumed by a list of messages, in the words of the spec: the
overhead once per message plus the lengths of the messages. -/
def consumedBytes (overhead : Int) (msgList : List Bytes) : Int :=
  overhead * (msgList.length : Int) + (msgList.map (fun msg => (msg.length : Int))).sum

/-- Whether a recorded call is an operateNodeJoin or operateNodeLeave call. -/
def Call.isMembership : Call → Bool
  | Call.operateNodeJoin _ => true
  | Call.operateNodeLeave _ => true
  | _ => false

/-- Whether a recorded call witnesses one of the two clocks. -/
def Call.isClockUpdate : Call → Bool
  | Call.memberClockUpdate _ => true
  | Call.requestClockUpdate _ => true
  | _ => false

/-- The effect on the core of one recorded call: a clock Update, a handler run
for its effect, and no effect on the core for calls on the queues. -/
def replayCall {σ : Type} (H : Handlers σ) (core : Core σ) : Call → Core σ
  | Call.memberClockUpdate t => { core with memberClock := clockUpdate core.memberClock t }
  | Call.requestClockUpdate t => { core with requestClock := clockUpdate core.requestClock t }
  | Call.operateNodeJoin msg => (H.operateNodeJoin msg core).2
  | Call.operateNodeLeave msg => (H.operateNodeLeave msg core).2
  | Call.operateRequest msg => (H.operateRequest msg core).2
  | Call.operateResponse msg => (H.operateResponse msg core).2
  | Call.operateRelay msg => (H.operateRelay msg core).2
  | Call.fanoutBuffer _ _ => core
  | Call.queueGetBroadcasts _ _ _ => core

/-- The clock Update calls MergeRemoteState makes for a decoded message. -/
def clockCalls (msg : messagePushPull) : List Call :=
  (if msg.MemberClockTime > 0 then [Call.memberClockUpdate (subU64 msg.MemberClockTime 1)]
   else []) ++
  (if msg.RequestClockTime > 0 then [Call.requestClockUpdate (subU64 msg.RequestClockTime 1)]
   else [])

/-- The operateNodeLeave calls for a left member list, in list order. -/
def leaveCalls (msg : messagePushPull) : List Call :=
  msg.LeftMemberNames.map (fun name =>
    Call.operateNodeLeave { LeaveTime := mapIndex msg.MemberLastMessageTimes name,
                            NodeName := name })

/-- The operateNodeJoin calls for the map entries whose name is not in the left
member list, in iteration order. -/
def joinCalls (msg : messagePushPull) : List Call :=
  (msg.MemberLastMessageTimes.filter (fun e => decide (e.1 ∉ msg.LeftMemberNames))).map
    (fun e => Call.operateNodeJoin { JoinTime := e.2, NodeName := e.1 })

/-! ## An example instance

A small concrete codec and concrete handlers, used to run the delegate on
explicit buffers. -/

/-- Example tag constants: the values 0 to 5 in declaration order. -/
def exampleTypes : MessageTypes where
  memberJoinMessage := 0
  memberLeaveMessage := 1
  requestMessage := 2
  responseMessage := 3
  messageRelayMessage := 4
  statePushPullMessage := 5
  distinct := by decide

/-- Example node names: one letter per byte value. -/
def exampleName (b : Byte) : String :=
  if b = 65 then "A" else if b = 66 then "B" else if b = 67 then "C" else "N"

/-- Example decoding of a list of (name, time) byte pairs. -/
def examplePairs : Bytes → Option (List (String × logicalTime))
  | [] => some []
  | [_] => none
  | n :: t :: rest =>
      match examplePairs rest with
      | none => none
      | some l => some ((exampleName n, t.val) :: l)

/-- Example codec: a join or leave payload is a name byte and a time byte, a
request or response payload adds further bytes, a relay payload is a name byte
and further bytes, a push/pull payload is the two clock bytes, the number k of
left names, k name bytes and then (name, time) byte pairs; node tags pack to
themselves unless they start with the byte 255. -/
def exampleCodec : Codec Bytes where
  unpackMemberJoin := fun b =>
    match b with
    | [n, t] => some { NodeName := exampleName n, JoinTime := t.val }
    | _ => none
  unpackMemberLeave := fun b =>
    match b with
    | [n, t] => some { NodeName := exampleName n, LeaveTime := t.val }
    | _ => none
  unpackRequest := fun b =>
    match b with
    | n :: t :: rest => some { RequestNodeName := exampleName n, RequestTime := t.val, other := rest }
    | _ => none
  unpackResponse := fun b =>
    match b with
    | n :: t :: rest => some { ResponseNodeName := exampleName n, RequestTime := t.val, other := rest }
    | _ => none
  unpackRelay := fun b =>
    match b with
    | n :: rest => some { SourceNodeName := exampleName n, other := rest }
    | _ => none
  unpackPushPull := fun b =>
    match b with
    | mc :: rc :: k :: rest =>
        if k.val ≤ rest.length then
          match examplePairs (rest.drop k.val) with
          | none => none
          | some l => some { MemberClockTime := mc.val, RequestClockTime := rc.val,
                             MemberLastMessageTimes := l,
                             LeftMemberNames := (rest.take k.val).map exampleName }
        else none
    | _ => none
  PackNodeTags := fun tags =>
    match tags with
    | 255 :: _ => none
    | _ => some tags

/-- Example handler state: the last message time of each known member and the
departure time of each left member. -/
structure exampleTable where
  members : List (String × logicalTime)
  leftMembers : List (String × logicalTime)
deriving DecidableEq, Repr

/-- Example join rule, after the merge rule of the membership state table in
the spec: refused for a name that left at that time or later, accepted for an
unknown name or a later time than recorded. -/
def exampleJoin (msg : messageMemberJoin) (core : Core exampleTable) : Bool × Core exampleTable :=
  let core1 := { core with memberClock := clockUpdate core.memberClock msg.JoinTime }
  if core.app.leftMembers.any (fun e => e.1 == msg.NodeName && decide (msg.JoinTime ≤ e.2)) then
    (false, core1)
  else
    match core.app.members.find? (fun e => e.1 == msg.NodeName) with
    | none =>
        (true, { core1 with app := { core.app with
                  members := core.app.members ++ [(msg.NodeName, msg.JoinTime)] } })
    | some e =>
        if e.2 < msg.JoinTime then
          (true, { core1 with app := { core.app with
                    members := core.app.members.map
                      (fun x => if x.1 == msg.NodeName then (x.1, msg.JoinTime) else x) } })
        else (false, core1)

/-- Example leave rule, after the merge rule of the membership state table in
the spec: accepted for an unknown name or a time not earlier than recorded; the
name moves to the left members at that time. -/
def exampleLeave (msg : messageMemberLeave) (core : Core exampleTable) : Bool × Core exampleTable :=
  let core1 := { core with memberClock := clockUpdate core.memberClock msg.LeaveTime }
  let accept :=
    match core.app.members.find? (fun e => e.1 == msg.NodeName) with
    | none => true
    | some e => decide (e.2 ≤ msg.LeaveTime)
  if accept then
    (true, { core1 with app :=
      { members := core.app.members.filter (fun e => !(e.1 == msg.NodeName)),
        leftMembers := core.app.leftMembers.filter (fun e => !(e.1 == msg.NodeName))
          ++ [(msg.NodeName, msg.LeaveTime)] } })
  else (false, core1)

/-- Example handlers: the join and leave rules above; a request is forwarded
when its time is ahead of the request clock; the response handler reports
true and the relay handler false, both witnessing nothing else. -/
def exampleHandlers : Handlers exampleTable where
  operateNodeJoin := exampleJoin
  operateNodeLeave := exampleLeave
  operateRequest := fun msg core =>
    (decide (core.requestClock < msg.RequestTime),
     { core with requestClock := clockUpdate core.requestClock msg.RequestTime })
  operateResponse := fun msg core =>
    (true, { core with requestClock := clockUpdate core.requestClock msg.RequestTime })
  operateRelay := fun _ core => (false, core)

/-- Example cluster: clocks at zero, empty table, empty queues, three tag bytes. -/
def exampleCluster : Cluster Bytes exampleTable where
  NodeTags := [1, 2, 3]
  core := { memberClock := 0, requestClock := 0, app := { members := [], leftMembers := [] } }
  memberMessageSendQueue := []
  requestMessageSendQueue := []

/-- Example drain of a queue: the pending messages, oldest first, as long as the
cumulative overhead plus length stays within the limit; they stay pending. -/
def exampleDrain (q : List Bytes) (overhead limit : Int) : List Bytes × List Bytes :=
  ((q.foldl (fun (acc : List Bytes × Int) msg =>
      if acc.2 + overhead + (msg.length : Int) ≤ limit then
        (acc.1 ++ [msg], acc.2 + overhead + (msg.length : Int))
      else acc) ([], 0)).1, q)

/-! ## Local state for push/pull, and bounds-checked reads -/

/-- Liveness of a node record. -/
inductive nodeStatus where
  | alive
  | left
deriving DecidableEq, Repr

/-- Modelled from the spec: the memberStatus record, whose type declaration is
absent; the Node Record of the data model, with the lastMessageTime field
LocalState reads and the liveness status. -/
structure memberStatus where
  status : nodeStatus
  lastMessageTime : logicalTime
deriving DecidableEq, Repr

/-- The member table of a Cluster: the Go map members as the list of its
entries in range order (keys are distinct), and the left members, each with its
departure time. -/
structure memberTable where
  members : List (String × memberStatus)
  leftMembers : List (String × logicalTime)
deriving DecidableEq, Repr

/-- Modelled from the spec: the names method of the left member list, whose
source is absent; the names of the left members, in the order held. -/
def names (leftMembers : List (String × logicalTime)) : List String :=
  leftMembers.map Prod.fst

/-- Modelled from the spec: logicalClock.Time, whose source is absent; the
current value of the clock, not changing it. -/
def clockTime (current : logicalTime) : logicalTime := current

/-- Assignment m[k] = v on a Go map of logical times: the entry of an existing
key is overwritten, a new key gets a new entry. -/
def mapSet (m : List (String × logicalTime)) (k : String) (v : logicalTime) :
    List (String × logicalTime) :=
  if m.any (fun e => e.1 == k) then m.map (fun e => if e.1 == k then (e.1, v) else e)
  else m ++ [(k, v)]

/-- Method messageDelegate.LocalState: the returned slice (none is the nil
slice) and the cluster after the call.  The parameter PackWithHeader stands for
the absent packing function, none for its error. -/
def LocalState {Tags : Type} (T : MessageTypes)
    (PackWithHeader : messagePushPull → Byte → Option Bytes) (join : Bool)
    (c : Cluster Tags memberTable) : Option Bytes × Cluster Tags memberTable :=
  let msg0 : messagePushPull :=
    { MemberClockTime := clockTime c.core.memberClock
      RequestClockTime := clockTime c.core.requestClock
      MemberLastMessageTimes := []
      LeftMemberNames := [] }
  let msg1 : messagePushPull :=
    { msg0 with MemberLastMessageTimes :=
        (c.core.app.members.foldl (fun m e => mapSet m e.1 e.2.lastMessageTime)
          msg0.MemberLastMessageTimes) }
  let msg : messagePushPull :=
    { msg1 with LeftMemberNames := msg1.LeftMemberNames ++ (names c.core.app.leftMembers) }
  match PackWithHeader msg T.statePushPullMessage with
  | none => (none, c)
  | some buff => (some buff, c)

/-- The Go index expression buff[i]: none is the index out of range panic. -/
def goIndex (buff : Bytes) (i : Nat) : Option Byte :=
  if i < buff.length then buff[i]? else none

/-- The Go slice expression buff[i:]: none is the slice bounds out of range
panic. -/
def goSliceFrom (buff : Bytes) (i : Nat) : Option Bytes :=
  if i ≤ buff.length then some (buff.drop i) else none

/-- NotifyMsg with the reads of the buffer made explicit: the length check, then
buff[0], then buff[1:]; none is a run-time panic on an out of range read. -/
def NotifyMsgChecked {Tags σ : Type} (T : MessageTypes) (codec : Codec Tags) (H : Handlers σ)
    (buff : Bytes) (c : Cluster Tags σ) : Option (Cluster Tags σ × List Call) :=
  if buff.length = 0 then some (c, [])
  else
    match goIndex buff 0 with
    | none => none
    | some msgType =>
        match goSliceFrom buff 1 with
        | none => none
        | some payload =>
            let d := dispatch T codec H msgType payload c.core
            let c1 := { c with core := d.2.2.1 }
            if d.2.1 then
              let dup := copyBytes (makeBytes buff.length) buff
              some (fanoutBuffer d.1 dup c1, d.2.2.2 ++ [Call.fanoutBuffer d.1 dup])
            else some (c1, d.2.2.2)

/-- MergeRemoteState with the reads of the buffer made explicit: the length
check, then buff[0], then buff[1:]; none is a run-time panic on an out of range
read. -/
def MergeRemoteStateChecked {Tags σ : Type} (T : MessageTypes) (codec : Codec Tags)
    (H : Handlers σ) (buff : Bytes) (isJoin : Bool) (c : Cluster Tags σ) :
    Option (Cluster Tags σ × List Call) :=
  if buff.length = 0 then some (c, [])
  else
    match goIndex buff 0 with
    | none => none
    | some msgType =>
        match goSliceFrom buff 1 with
        | none => none
        | some payload => some (MergeRemoteState T codec H (msgType :: payload) isJoin c)

/-! ## The merge rule of the membership state table -/

/-- Modelled from the spec: recording a name in the left member set at a time;
the entry of a name already held is overwritten, a new name gets a new entry. -/
def recordLeft (leftMembers : List (String × logicalTime)) (name : String) (time : logicalTime) :
    List (String × logicalTime) :=
  mapSet leftMembers name time

/-- Modelled from the spec: Cluster.operateNodeJoin, whose source is absent.
The membership clock witnesses the join time; the join is accepted only if the
name is not in the left member set with a departure time at or after the join
time, and the name is unknown or the join time is later than its
lastMessageTime; an accepted join sets lastMessageTime to the join time and the
status to alive; a join not accepted changes nothing in the table. -/
def operateNodeJoin (msg : messageMemberJoin) (core : Core memberTable) :
    Bool × Core memberTable :=
  let core1 := { core with memberClock := clockUpdate core.memberClock msg.JoinTime }
  if core.app.leftMembers.any (fun e => e.1 == msg.NodeName && decide (msg.JoinTime ≤ e.2)) then
    (false, core1)
  else
    match core.app.members.find? (fun e => e.1 == msg.NodeName) with
    | none =>
        (true, { core1 with app := { core.app with
                  members := core.app.members ++
                    [(msg.NodeName, { status := nodeStatus.alive,
                                      lastMessageTime := msg.JoinTime })] } })
    | some e =>
        if e.2.lastMessageTime < msg.JoinTime then
          (true, { core1 with app := { core.app with
                    members := core.app.members.map (fun x =>
                      if x.1 == msg.NodeName then
                        (x.1, { status := nodeStatus.alive, lastMessageTime := msg.JoinTime })
                      else x) } })
        else (false, core1)

/-- Modelled from the spec: Cluster.operateNodeLeave, whose source is absent.
The membership clock witnesses the leave time; the leave is accepted only if
the name is unknown or the leave time is at or after its lastMessageTime; an
accepted leave records the name in the left member set at the leave time and
marks the node record, if there is one, as left at that time. -/
def operateNodeLeave (msg : messageMemberLeave) (core : Core memberTable) :
    Bool × Core memberTable :=
  let core1 := { core with memberClock := clockUpdate core.memberClock msg.LeaveTime }
  let accept :=
    match core.app.members.find? (fun e => e.1 == msg.NodeName) with
    | none => true
    | some e => decide (e.2.lastMessageTime ≤ msg.LeaveTime)
  if accept then
    (true, { core1 with app :=
      { members := core.app.members.map (fun x =>
          if x.1 == msg.NodeName then
            (x.1, { status := nodeStatus.left, lastMessageTime := msg.LeaveTime })
          else x),
        leftMembers := recordLeft core.app.leftMembers msg.NodeName msg.LeaveTime } })
  else (false, core1)

/-- Handlers over the member table: the join and leave rules above, the
request, response and relay handlers taken from the given handlers. -/
def tableHandlers (H : Handlers memberTable) : Handlers memberTable :=
  { H with operateNodeJoin := operateNodeJoin, operateNodeLeave := operateNodeLeave }

/-! ## An example instance over the member table -/

/-- Example name bytes: the inverse of exampleName on the three letters. -/
def exampleNameByte (name : String) : Option Byte :=
  if name = "A" then some 65 else if name = "B" then some 66
  else if name = "C" then some 67 else none

/-- Example time byte: a logical time below 256. -/
def exampleTimeByte (t : logicalTime) : Option Byte :=
  if h : t < 256 then some ⟨t, h⟩ else none

/-- Example encoding of a list of names. -/
def examplePackNames : List String → Option Bytes
  | [] => some []
  | name :: rest =>
      match exampleNameByte name, examplePackNames rest with
      | some b, some l => some (b :: l)
      | _, _ => none

/-- Example encoding of a list of (name, time) pairs. -/
def examplePackPairs : List (String × logicalTime) → Option Bytes
  | [] => some []
  | (name, t) :: rest =>
      match exampleNameByte name, exampleTimeByte t, examplePackPairs rest with
      | some b, some u, some l => some (b :: u :: l)
      | _, _, _ => none

/-- Example PackWithHeader, the encoding read by the example codec: the tag, the
two clock bytes, the number of left names, the left names, the pairs. -/
def examplePackWithHeader (msg : messagePushPull) (tag : Byte) : Option Bytes :=
  match exampleTimeByte msg.MemberClockTime, exampleTimeByte msg.RequestClockTime,
        exampleTimeByte msg.LeftMemberNames.length, examplePackNames msg.LeftMemberNames,
        examplePackPairs msg.MemberLastMessageTimes with
  | some mc, some rc, some k, some l, some p => some (tag :: mc :: rc :: k :: (l ++ p))
  | _, _, _, _, _ => none

/-- Example handlers over the member table. -/
def exampleTableHandlers : Handlers memberTable :=
  tableHandlers
    { operateNodeJoin := fun _ core => (false, core)
      operateNodeLeave := fun _ core => (false, core)
      operateRequest := fun _ core => (false, core)
      operateResponse := fun _ core => (false, core)
      operateRelay := fun _ core => (false, core) }

/-- Example cluster over the member table: C alive since 2, B left at 6 and
still on record. -/
def exampleTableCluster : Cluster Bytes memberTable where
  NodeTags := [1, 2, 3]
  core := { memberClock := 7, requestClock := 3,
            app := { members := [("C", { status := nodeStatus.alive, lastMessageTime := 2 }),
                                 ("B", { status := nodeStatus.left, lastMessageTime := 6 })],
                     leftMembers := [("B", 6)] } }
  memberMessageSendQueue := []
  requestMessageSendQueue := []

/-- Example cluster over the member table: B left at 6 and its node record has
been evicted from the table. -/
def exampleEvictedCluster : Cluster Bytes memberTable where
  NodeTags := [1, 2, 3]
  core := { memberClock := 7, requestClock := 3,
            app := { members := [], leftMembers := [("B", 6)] } }
  memberMessageSendQueue := []
  requestMessageSendQueue := []

end cluster

/-!
# Option values (package common, option.go)

The flag values Uint16Value and Uint64RangeValue.  The functions ParseUint and
FormatUint of the Go library strconv are parameters; a concrete model of both
is given for running the methods.
-/

namespace common

/-- The functions of the Go library strconv used by option.go: ParseUint with
its string, base and bit size (none for a returned error), and FormatUint with
its value and base. -/
structure Strconv where
  ParseUint : String → Nat → Nat → Option Nat
  FormatUint : Nat → Nat → String

/-- The error a Set method returns. -/
inductive SetError where
  | parse
  | outOfRange (min max : Nat)
deriving DecidableEq, Repr

/-- The type Uint16Value: an unsigned 16-bit value. -/
structure Uint16Value where
  val : Nat
deriving DecidableEq, Repr

/-- Function NewUint16Value: the value stored through the pointer, which is
allocated when nil (p is what the pointer held before, none for nil). -/
def NewUint16Value (val : Nat) (p : Option Nat) : Uint16Value :=
  match p with
  | none => { val := val }
  | some _ => { val := val }

/-- Method Uint16Value.Set: the error returned (none is nil) and the receiver
after the call; the parsed uint64 is converted to 16 bits. -/
def Uint16Value.Set (S : Strconv) (i : Uint16Value) (s : String) :
    Option SetError × Uint16Value :=
  match S.ParseUint s 0 16 with
  | none => (some SetError.parse, i)
  | some v => (none, { val := v % 65536 })

/-- Method Uint16Value.String. -/
def Uint16Value.String (S : Strconv) (i : Uint16Value) : String :=
  S.FormatUint i.val 10

/-- The type Uint64RangeValue: the value behind the pointer v (none is the nil
pointer of the zero value) and the two bounds. -/
structure Uint64RangeValue where
  v : Option Nat
  min : Nat
  max : Nat
deriving DecidableEq, Repr

/-- Function NewUint64RangeValue: the pointer, allocated when nil, is made to
hold val (p is what it held before, none for nil); no range check is made. -/
def NewUint64RangeValue (val : Nat) (p : Option Nat) (min max : Nat) : Uint64RangeValue :=
  match p with
  | none => { v := some val, min := min, max := max }
  | some _ => { v := some val, min := min, max := max }

/-- What a call of Uint64RangeValue.Set does: it returns an error (none is nil)
leaving the receiver in the given state, or it stops on the dereference of a
nil pointer. -/
inductive SetOutcome where
  | returned (err : Option SetError) (after : Uint64RangeValue)
  | nilDereference
deriving DecidableEq, Repr

/-- Method Uint64RangeValue.Set. -/
def Uint64RangeValue.Set (S : Strconv) (i : Uint64RangeValue) (s : String) : SetOutcome :=
  match S.ParseUint s 0 64 with
  | none => SetOutcome.returned (some SetError.parse) i
  | some v =>
      if v < i.min ∨ v > i.max then
        SetOutcome.returned (some (SetError.outOfRange i.min i.max)) i
      else
        match i.v with
        | none => SetOutcome.nilDereference
        | some _ => SetOutcome.returned none { i with v := some v }

/-- The receiver after a call of Set with the given outcome (a call stopped by
a nil dereference has written nothing). -/
def SetOutcome.receiver (before : Uint64RangeValue) : SetOutcome → Uint64RangeValue
  | SetOutcome.returned _ after => after
  | SetOutcome.nilDereference => before

/-- The receiver after a sequence of Set calls, one per string, in order. -/
def Uint64RangeValue.SetAll (S : Strconv) (i : Uint64RangeValue) (ss : List String) :
    Uint64RangeValue :=
  ss.foldl (fun acc s => (Uint64RangeValue.Set S acc s).receiver acc) i

/-- Method Uint64RangeValue.String. -/
def Uint64RangeValue.String (S : Strconv) (i : Uint64RangeValue) : String :=
  match i.v with
  | none => S.FormatUint 0 10
  | some x => S.FormatUint x 10

/-! ## A model of strconv -/

/-- The digit a character stands for in ParseUint: 0 to 9, then the letters of
either case from 10 on. -/
def digitVal (c : Char) : Option Nat :=
  if 48 ≤ c.toNat ∧ c.toNat ≤ 57 then some (c.toNat - 48)
  else if 97 ≤ c.toNat ∧ c.toNat ≤ 122 then some (c.toNat - 97 + 10)
  else if 65 ≤ c.toNat ∧ c.toNat ≤ 90 then some (c.toNat - 65 + 10)
  else none

/-- The digit loop of ParseUint: each character must be a digit below the base;
a value that would pass 2^64 or maxVal is a range error. -/
def parseDigits (base maxVal : Nat) : List Char → Nat → Option Nat
  | [], n => some n
  | c :: rest, n =>
      match digitVal c with
      | none => none
      | some d =>
          if d ≥ base then none
          else if n ≥ 18446744073709551615 / base + 1 then none
          else if n * base + d ≥ 18446744073709551616 ∨ n * base + d > maxVal then none
          else parseDigits base maxVal rest (n * base + d)

/-- The base chosen by ParseUint for base 0, with the digits left to read: a
leading 0 selects by the next letter base 2, 8 or 16, else base 8; any other
start is base 10. -/
def detectBase : List Char → Nat × List Char
  | '0' :: c :: d :: rest =>
      if c = 'b' ∨ c = 'B' then (2, d :: rest)
      else if c = 'o' ∨ c = 'O' then (8, d :: rest)
      else if c = 'x' ∨ c = 'X' then (16, d :: rest)
      else (8, c :: d :: rest)
  | '0' :: rest => (8, rest)
  | s => (10, s)

/-- Model of strconv.ParseUint (separator underscores are not accepted). -/
def goParseUint (s : String) (base bitSize : Nat) : Option Nat :=
  if s.toList = [] then none
  else if 64 < bitSize then none
  else
    let maxVal := 2 ^ (if bitSize = 0 then 64 else bitSize) - 1
    if base = 0 then parseDigits (detectBase s.toList).1 maxVal (detectBase s.toList).2 0
    else if 2 ≤ base ∧ base ≤ 36 then parseDigits base maxVal s.toList 0
    else none

/-- The character of a digit below 36 in FormatUint. -/
def digitChar (d : Nat) : Char :=
  if d < 10 then Char.ofNat (48 + d) else Char.ofNat (97 + (d - 10))

/-- The digits of n in the base, most significant first, put before acc; the
first argument bounds the number of digits. -/
def formatDigits (base : Nat) : Nat → Nat → List Char → List Char
  | 0, _, acc => acc
  | fuel + 1, n, acc =>
      if n < base then digitChar n :: acc
      else formatDigits base fuel (n / base) (digitChar (n % base) :: acc)

/-- Model of strconv.FormatUint for a uint64 value and a base from 2 to 36. -/
def goFormatUint (v base : Nat) : String :=
  String.mk (formatDigits base 64 v [])

/-- The model of strconv. -/
def goStrconv : Strconv where
  ParseUint := goParseUint
  FormatUint := goFormatUint

end common

namespace cluster

/-! ## Slices in memory -/

/-- The byte arrays allocated so far, each at the address that is its position. -/
abbrev Heap := List Bytes

/-- A Go slice of bytes as a reference: the address of its backing array, the
offset of its first byte in that array, and its length. -/
structure Slice where
  array : Nat
  off : Nat
  len : Nat
deriving DecidableEq, Repr

/-- The bytes a slice denotes in a heap. -/
def Slice.read (h : Heap) (s : Slice) : Bytes :=
  ((h.getD s.array []).drop s.off).take s.len

/-- The Go builtin make([]byte, n) on a heap: a new array of n zero bytes is
allocated at the next free address, and the slice of the whole of it returned. -/
def heapMake (h : Heap) (n : Nat) : Heap × Slice :=
  (h ++ [makeBytes n], { array := h.length, off := 0, len := n })

/-- The Go builtin copy(dst, src) on a heap: the first min(len dst, len src)
bytes of src are written into the backing array of dst from its offset on; no
other array changes. -/
def heapCopy (h : Heap) (dst src : Slice) : Heap :=
  match h[dst.array]? with
  | none => h
  | some arr =>
      h.set dst.array
        (arr.take dst.off ++ (src.read h).take (min dst.len src.len) ++
          arr.drop (dst.off + min dst.len src.len))

/-- What a run of NotifyMsg on a heap leaves: the heap, the arguments of the
fanoutBuffer call when one is made (the queue and the slice handed over), the
cluster and the calls made. -/
structure MemResult (Tags σ : Type) where
  heap : Heap
  forwarded : Option (Option QueueId × Slice)
  cluster : Cluster Tags σ
  calls : List Call

/-- Method messageDelegate.NotifyMsg with the buffer as a slice into a heap:
len(buff), buff[0] and buff[1:] read the heap, make allocates dup, copy writes
it, and fanoutBuffer is handed the slice dup.  A slice of non-zero length that
denotes no byte lies outside its array; no such slice is passed in. -/
def NotifyMsgMem {Tags σ : Type} (T : MessageTypes) (codec : Codec Tags) (H : Handlers σ)
    (h : Heap) (buff : Slice) (c : Cluster Tags σ) : MemResult Tags σ :=
  if buff.len = 0 then { heap := h, forwarded := none, cluster := c, calls := [] }
  else
    match buff.read h with
    | [] => { heap := h, forwarded := none, cluster := c, calls := [] }
    | msgType :: payload =>
        let d := dispatch T codec H msgType payload c.core
        let c1 := { c with core := d.2.2.1 }
        if d.2.1 then
          let m := heapMake h buff.len
          let h2 := heapCopy m.1 m.2 buff
          { heap := h2, forwarded := some (d.1, m.2),
            cluster := fanoutBuffer d.1 (m.2.read h2) c1,
            calls := d.2.2.2 ++ [Call.fanoutBuffer d.1 (m.2.read h2)] }
        else { heap := h, forwarded := none, cluster := c1, calls := d.2.2.2 }

/-! ## Auxiliary facts -/

/-- The five tags of the switch are pairwise different. -/
theorem MessageTypes.tags_ne (T : MessageTypes) :
    T.memberJoinMessage ≠ T.memberLeaveMessage ∧ T.memberJoinMessage ≠ T.requestMessage ∧
    T.memberJoinMessage ≠ T.responseMessage ∧ T.memberJoinMessage ≠ T.messageRelayMessage ∧
    T.memberLeaveMessage ≠ T.requestMessage ∧ T.memberLeaveMessage ≠ T.responseMessage ∧
    T.memberLeaveMessage ≠ T.messageRelayMessage ∧ T.requestMessage ≠ T.responseMessage ∧
    T.requestMessage ≠ T.messageRelayMessage ∧ T.responseMessage ≠ T.messageRelayMessage := by
  have h := T.distinct
  simp only [List.nodup_cons, List.mem_cons, List.mem_singleton, not_or, List.not_mem_nil,
    not_false_eq_true, List.nodup_nil, and_true] at h
  obtain ⟨⟨a, b, c, d⟩, ⟨e, f, g⟩, ⟨i, j⟩, k⟩ := h
  exact ⟨a, b, c, d, e, f, g, i, j, k⟩

/-- Copying a buffer into a fresh slice of the same length gives the buffer. -/
theorem copyBytes_makeBytes (buff : Bytes) : copyBytes (makeBytes buff.length) buff = buff := by
  simp [copyBytes, makeBytes]

/-- NotifyMsg on a non-empty buffer, in terms of the outcome of its switch. -/
theorem NotifyMsg_cons {Tags σ : Type} (T : MessageTypes) (codec : Codec Tags) (H : Handlers σ)
    (msgType : Byte) (payload : Bytes) (c : Cluster Tags σ) :
    NotifyMsg T codec H (msgType :: payload) c =
      if (dispatch T codec H msgType payload c.core).2.1 then
        (fanoutBuffer (dispatch T codec H msgType payload c.core).1 (msgType :: payload)
            { c with core := (dispatch T codec H msgType payload c.core).2.2.1 },
         (dispatch T codec H msgType payload c.core).2.2.2 ++
            [Call.fanoutBuffer (dispatch T codec H msgType payload c.core).1 (msgType :: payload)])
      else ({ c with core := (dispatch T codec H msgType payload c.core).2.2.1 },
            (dispatch T codec H msgType payload c.core).2.2.2) := by
  have hc := copyBytes_makeBytes (msgType :: payload)
  simp only [NotifyMsg, hc]

/-- The switch on a MemberJoin tag with a payload that decodes. -/
theorem dispatch_join {Tags σ : Type} (T : MessageTypes) (codec : Codec Tags) (H : Handlers σ)
    (payload : Bytes) (core : Core σ) (msg : messageMemberJoin)
    (h : codec.unpackMemberJoin payload = some msg) :
    dispatch T codec H T.memberJoinMessage payload core =
      (some QueueId.memberMessageSendQueue, (H.operateNodeJoin msg core).1,
        (H.operateNodeJoin msg core).2, [Call.operateNodeJoin msg]) := by
  simp [dispatch, h]

/-- The switch on a MemberLeave tag with a payload that decodes. -/
theorem dispatch_leave {Tags σ : Type} (T : MessageTypes) (codec : Codec Tags) (H : Handlers σ)
    (payload : Bytes) (core : Core σ) (msg : messageMemberLeave)
    (h : codec.unpackMemberLeave payload = some msg) :
    dispatch T codec H T.memberLeaveMessage payload core =
      (some QueueId.memberMessageSendQueue, (H.operateNodeLeave msg core).1,
        (H.operateNodeLeave msg core).2, [Call.operateNodeLeave msg]) := by
  obtain ⟨a, -⟩ := T.tags_ne
  simp [dispatch, h, Ne.symm a]

/-- The switch on a Request tag with a payload that decodes. -/
theorem dispatch_request {Tags σ : Type} (T : MessageTypes) (codec : Codec Tags) (H : Handlers σ)
    (payload : Bytes) (core : Core σ) (msg : messageRequest)
    (h : codec.unpackRequest payload = some msg) :
    dispatch T codec H T.requestMessage payload core =
      (some QueueId.requestMessageSendQueue, (H.operateRequest msg core).1,
        (H.operateRequest msg core).2, [Call.operateRequest msg]) := by
  obtain ⟨-, b, -, -, e, -⟩ := T.tags_ne
  simp [dispatch, h, Ne.symm b, Ne.symm e]

/-- The switch never selects a queue on a Response tag. -/
theorem dispatch_response_queue {Tags σ : Type} (T : MessageTypes) (codec : Codec Tags)
    (H : Handlers σ) (payload : Bytes) (core : Core σ) :
    (dispatch T codec H T.responseMessage payload core).1 = none := by
  obtain ⟨-, -, c, -, -, f, -, i, -⟩ := T.tags_ne
  simp only [dispatch, Ne.symm c, Ne.symm f, Ne.symm i, if_false, if_true]
  cases codec.unpackResponse payload <;> rfl

/-- The switch never selects a queue on a Relay tag. -/
theorem dispatch_relay_queue {Tags σ : Type} (T : MessageTypes) (codec : Codec Tags)
    (H : Handlers σ) (payload : Bytes) (core : Core σ) :
    (dispatch T codec H T.messageRelayMessage payload core).1 = none := by
  obtain ⟨-, -, -, d, -, -, g, -, j, k⟩ := T.tags_ne
  simp only [dispatch, Ne.symm d, Ne.symm g, Ne.symm j, Ne.symm k, if_false, if_true]
  cases codec.unpackRelay payload <;> rfl

/-- With the nil queue, fanoutBuffer leaves the cluster as it is. -/
theorem fanoutBuffer_none {Tags σ : Type} (dup : Bytes) (c : Cluster Tags σ) :
    fanoutBuffer none dup c = c := rfl

/-- When NotifyMsg selects no queue, both queues keep their contents and no
call hands a buffer to a queue. -/
theorem NotifyMsg_no_queue {Tags σ : Type} (T : MessageTypes) (codec : Codec Tags)
    (H : Handlers σ) (msgType : Byte) (payload : Bytes) (c : Cluster Tags σ)
    (hq : (dispatch T codec H msgType payload c.core).1 = none)
    (hl : ∀ q dup, Call.fanoutBuffer q dup ∉ (dispatch T codec H msgType payload c.core).2.2.2) :
    (NotifyMsg T codec H (msgType :: payload) c).1.memberMessageSendQueue
        = c.memberMessageSendQueue ∧
    (NotifyMsg T codec H (msgType :: payload) c).1.requestMessageSendQueue
        = c.requestMessageSendQueue ∧
    ∀ q dup, Call.fanoutBuffer (some q) dup ∉ (NotifyMsg T codec H (msgType :: payload) c).2 := by
  rw [NotifyMsg_cons, hq]
  split
  · refine ⟨rfl, rfl, ?_⟩
    intro q dup hmem
    simp only [List.mem_append, List.mem_singleton] at hmem
    rcases hmem with hmem | hmem
    · exact hl _ _ hmem
    · cases hmem
  · exact ⟨rfl, rfl, fun q dup hmem => hl _ _ hmem⟩

/-- The calls recorded by the switch are handler calls, never fanoutBuffer. -/
theorem dispatch_log_no_fanout {Tags σ : Type} (T : MessageTypes) (codec : Codec Tags)
    (H : Handlers σ) (msgType : Byte) (payload : Bytes) (core : Core σ) (q : Option QueueId)
    (dup : Bytes) : Call.fanoutBuffer q dup ∉ (dispatch T codec H msgType payload core).2.2.2 := by
  unfold dispatch
  repeat' split
  all_goals simp

/-! ## Inbound dispatch: NotifyMsg -/

/-- Claim C8: on the empty buffer NotifyMsg returns the cluster as it was
(clocks, handler state and both queues) having made no call at all, and so
does MergeRemoteState: no clock is witnessed, no leave and no join applied. -/
theorem empty_buffer_is_noop {Tags σ : Type} (T : MessageTypes) (codec : Codec Tags)
    (H : Handlers σ) (isJoin : Bool) (c : Cluster Tags σ) :
    NotifyMsg T codec H [] c = (c, []) ∧ MergeRemoteState T codec H [] isJoin c = (c, []) :=
  ⟨rfl, rfl⟩

/-- Claim C7: a non-empty buffer whose payload does not decode at the type its
tag selects, or whose tag is none of the five tags of the switch, makes
NotifyMsg return with the cluster unchanged (nothing enqueued) and with no call
made (no handler invoked). -/
theorem NotifyMsg_drops_undecodable {Tags σ : Type} (T : MessageTypes) (codec : Codec Tags)
    (H : Handlers σ) (msgType : Byte) (payload : Bytes) (c : Cluster Tags σ)
    (hj : msgType = T.memberJoinMessage → codec.unpackMemberJoin payload = none)
    (hl : msgType = T.memberLeaveMessage → codec.unpackMemberLeave payload = none)
    (hq : msgType = T.requestMessage → codec.unpackRequest payload = none)
    (hp : msgType = T.responseMessage → codec.unpackResponse payload = none)
    (hr : msgType = T.messageRelayMessage → codec.unpackRelay payload = none) :
    NotifyMsg T codec H (msgType :: payload) c = (c, []) := by
  have hd : dispatch T codec H msgType payload c.core = (none, false, c.core, []) := by
    unfold dispatch
    split
    · next h => rw [hj h]
    · split
      · next h => rw [hl h]
      · split
        · next h => rw [hq h]
        · split
          · next h => rw [hp h]
          · split
            · next h => rw [hr h]
            · rfl
  rw [NotifyMsg_cons, hd]
  rfl

/-- Witness for C7: an empty join payload does not decode in the example codec,
and the byte 9 is no tag of the example switch; both buffers are dropped. -/
theorem NotifyMsg_drops_undecodable_witness :
    NotifyMsg exampleTypes exampleCodec exampleHandlers [0] exampleCluster = (exampleCluster, []) ∧
    NotifyMsg exampleTypes exampleCodec exampleHandlers [9, 66, 5] exampleCluster
      = (exampleCluster, []) :=
  ⟨NotifyMsg_drops_undecodable exampleTypes exampleCodec exampleHandlers 0 [] exampleCluster
      (fun _ => rfl) (fun h => absurd h (by decide)) (fun h => absurd h (by decide))
      (fun h => absurd h (by decide)) (fun h => absurd h (by decide)),
   NotifyMsg_drops_undecodable exampleTypes exampleCodec exampleHandlers 9 [66, 5] exampleCluster
      (fun h => absurd h (by decide)) (fun h => absurd h (by decide))
      (fun h => absurd h (by decide)) (fun h => absurd h (by decide))
      (fun h => absurd h (by decide))⟩

/-- Claim C3: for a MemberJoin, MemberLeave or Request buffer whose payload
decodes, NotifyMsg calls the handler of that type once; the received buffer is
appended to the membership queue (join, leave) or to the request queue
(request) exactly when the handler returns true, the other queue keeps its
contents, and when the handler returns false both queues keep theirs. -/
theorem NotifyMsg_forwards_iff_handler {Tags σ : Type} (T : MessageTypes) (codec : Codec Tags)
    (H : Handlers σ) (payload : Bytes) (c : Cluster Tags σ) :
    (∀ msg, codec.unpackMemberJoin payload = some msg →
      NotifyMsg T codec H (T.memberJoinMessage :: payload) c =
        ({ c with
            core := (H.operateNodeJoin msg c.core).2
            memberMessageSendQueue :=
              if (H.operateNodeJoin msg c.core).1
              then c.memberMessageSendQueue ++ [T.memberJoinMessage :: payload]
              else c.memberMessageSendQueue },
         Call.operateNodeJoin msg ::
           (if (H.operateNodeJoin msg c.core).1
            then [Call.fanoutBuffer (some QueueId.memberMessageSendQueue)
                    (T.memberJoinMessage :: payload)]
            else []))) ∧
    (∀ msg, codec.unpackMemberLeave payload = some msg →
      NotifyMsg T codec H (T.memberLeaveMessage :: payload) c =
        ({ c with
            core := (H.operateNodeLeave msg c.core).2
            memberMessageSendQueue :=
              if (H.operateNodeLeave msg c.core).1
              then c.memberMessageSendQueue ++ [T.memberLeaveMessage :: payload]
              else c.memberMessageSendQueue },
         Call.operateNodeLeave msg ::
           (if (H.operateNodeLeave msg c.core).1
            then [Call.fanoutBuffer (some QueueId.memberMessageSendQueue)
                    (T.memberLeaveMessage :: payload)]
            else []))) ∧
    (∀ msg, codec.unpackRequest payload = some msg →
      NotifyMsg T codec H (T.requestMessage :: payload) c =
        ({ c with
            core := (H.operateRequest msg c.core).2
            requestMessageSendQueue :=
              if (H.operateRequest msg c.core).1
              then c.requestMessageSendQueue ++ [T.requestMessage :: payload]
              else c.requestMessageSendQueue },
         Call.operateRequest msg ::
           (if (H.operateRequest msg c.core).1
            then [Call.fanoutBuffer (some QueueId.requestMessageSendQueue)
                    (T.requestMessage :: payload)]
            else []))) := by
  refine ⟨?_, ?_, ?_⟩
  · intro msg h
    rw [NotifyMsg_cons, dispatch_join T codec H payload c.core msg h]
    cases (H.operateNodeJoin msg c.core).1 <;> rfl
  · intro msg h
    rw [NotifyMsg_cons, dispatch_leave T codec H payload c.core msg h]
    cases (H.operateNodeLeave msg c.core).1 <;> rfl
  · intro msg h
    rw [NotifyMsg_cons, dispatch_request T codec H payload c.core msg h]
    cases (H.operateRequest msg c.core).1 <;> rfl

/-- Witness for C3: in the example instance a join of B at time 5 is accepted
and the buffer [0, 66, 5] is appended to the membership queue only. -/
theorem NotifyMsg_forwards_iff_handler_witness :
    exampleCodec.unpackMemberJoin [66, 5] = some { NodeName := "B", JoinTime := 5 } ∧
    (exampleHandlers.operateNodeJoin { NodeName := "B", JoinTime := 5 } exampleCluster.core).1
      = true ∧
    NotifyMsg exampleTypes exampleCodec exampleHandlers [0, 66, 5] exampleCluster =
      ({ exampleCluster with
          core := { memberClock := 5, requestClock := 0,
                    app := { members := [("B", 5)], leftMembers := [] } }
          memberMessageSendQueue := [[0, 66, 5]] },
       [Call.operateNodeJoin { NodeName := "B", JoinTime := 5 },
        Call.fanoutBuffer (some QueueId.memberMessageSendQueue) [0, 66, 5]]) :=
  ⟨rfl, by decide,
   ((NotifyMsg_forwards_iff_handler exampleTypes exampleCodec exampleHandlers [66, 5]
      exampleCluster).1 { NodeName := "B", JoinTime := 5 } rfl).trans (by decide)⟩

/-- Claim C4: for a buffer tagged Response or Relay, whatever the payload and
whatever the handler returns, both broadcast queues hold after NotifyMsg what
they held before, and no call hands the buffer to either queue. -/
theorem NotifyMsg_response_relay_not_enqueued {Tags σ : Type} (T : MessageTypes)
    (codec : Codec Tags) (H : Handlers σ) (payload : Bytes) (c : Cluster Tags σ) :
    ((NotifyMsg T codec H (T.responseMessage :: payload) c).1.memberMessageSendQueue
        = c.memberMessageSendQueue ∧
     (NotifyMsg T codec H (T.responseMessage :: payload) c).1.requestMessageSendQueue
        = c.requestMessageSendQueue ∧
     ∀ q dup, Call.fanoutBuffer (some q) dup ∉
        (NotifyMsg T codec H (T.responseMessage :: payload) c).2) ∧
    ((NotifyMsg T codec H (T.messageRelayMessage :: payload) c).1.memberMessageSendQueue
        = c.memberMessageSendQueue ∧
     (NotifyMsg T codec H (T.messageRelayMessage :: payload) c).1.requestMessageSendQueue
        = c.requestMessageSendQueue ∧
     ∀ q dup, Call.fanoutBuffer (some q) dup ∉
        (NotifyMsg T codec H (T.messageRelayMessage :: payload) c).2) :=
  ⟨NotifyMsg_no_queue T codec H _ payload c (dispatch_response_queue T codec H payload c.core)
      (fun q dup => dispatch_log_no_fanout T codec H _ payload c.core q dup),
   NotifyMsg_no_queue T codec H _ payload c (dispatch_relay_queue T codec H payload c.core)
      (fun q dup => dispatch_log_no_fanout T codec H _ payload c.core q dup)⟩

/-- A slice of an allocated array denotes the same bytes after further arrays
have been allocated. -/
theorem Slice.read_append (h t : Heap) (s : Slice) (hs : s.array < h.length) :
    s.read (h ++ t) = s.read h := by
  simp only [Slice.read, List.getD_eq_getElem?_getD, List.getElem?_append_left hs]

/-- A slice within its array denotes as many bytes as its length. -/
theorem Slice.read_length (h : Heap) (s : Slice)
    (hs : s.off + s.len ≤ (h.getD s.array []).length) : (s.read h).length = s.len := by
  simp only [Slice.read, List.length_take, List.length_drop]
  omega

/-- After make and copy the heap is the heap before with one more array, which
holds the bytes of the source slice. -/
theorem heapCopy_heapMake (h : Heap) (buff : Slice) (hs : buff.array < h.length) :
    heapCopy (heapMake h buff.len).1 (heapMake h buff.len).2 buff = h ++ [buff.read h] := by
  have hget : (h ++ [makeBytes buff.len])[h.length]? = some (makeBytes buff.len) := by
    simp
  have hread : buff.read (h ++ [makeBytes buff.len]) = buff.read h :=
    Slice.read_append h _ buff hs
  have htake : (buff.read h).take buff.len = buff.read h := by
    simp only [Slice.read, List.take_take, min_self]
  have hdrop : (makeBytes buff.len).drop buff.len = [] := by
    simp [makeBytes]
  simp only [heapCopy, heapMake, hget, hread, min_self, htake, List.take_zero, List.nil_append,
    Nat.zero_add, hdrop, List.append_nil]
  simp

/-- The slice made by make denotes, after the copy, the bytes of the source. -/
theorem read_dup (h : Heap) (buff : Slice) :
    (heapMake h buff.len).2.read (h ++ [buff.read h]) = buff.read h := by
  simp only [heapMake, Slice.read, List.getD_eq_getElem?_getD, List.drop_zero]
  simp

/-- The run of NotifyMsg on a heap when it forwards: the closed form of what it
leaves. -/
theorem NotifyMsgMem_forward {Tags σ : Type} (T : MessageTypes) (codec : Codec Tags)
    (H : Handlers σ) (h : Heap) (buff : Slice) (c : Cluster Tags σ) (msgType : Byte)
    (payload : Bytes) (hs : buff.array < h.length) (hlen : buff.len ≠ 0)
    (hread : buff.read h = msgType :: payload)
    (hf : (dispatch T codec H msgType payload c.core).2.1 = true) :
    NotifyMsgMem T codec H h buff c =
      { heap := h ++ [buff.read h]
        forwarded := some ((dispatch T codec H msgType payload c.core).1,
                           { array := h.length, off := 0, len := buff.len })
        cluster := fanoutBuffer (dispatch T codec H msgType payload c.core).1 (buff.read h)
                    { c with core := (dispatch T codec H msgType payload c.core).2.2.1 }
        calls := (dispatch T codec H msgType payload c.core).2.2.2 ++
                  [Call.fanoutBuffer (dispatch T codec H msgType payload c.core).1
                    (buff.read h)] } := by
  have h1 := heapCopy_heapMake h buff hs
  have h2 := read_dup h buff
  simp only [NotifyMsgMem, hlen, if_false, hread, hf, if_true]
  rw [hread] at h1 h2
  simp only [h1, h2]
  rfl

/-- The run of NotifyMsg on a heap when it does not forward: the heap is the
heap before and no slice is handed over. -/
theorem NotifyMsgMem_no_forward {Tags σ : Type} (T : MessageTypes) (codec : Codec Tags)
    (H : Handlers σ) (h : Heap) (buff : Slice) (c : Cluster Tags σ)
    (hno : ∀ msgType payload, buff.read h = msgType :: payload →
      (dispatch T codec H msgType payload c.core).2.1 = false) :
    (NotifyMsgMem T codec H h buff c).heap = h ∧
    (NotifyMsgMem T codec H h buff c).forwarded = none ∧
    (NotifyMsgMem T codec H h buff c).cluster = (NotifyMsg T codec H (buff.read h) c).1 ∧
    (NotifyMsgMem T codec H h buff c).calls = (NotifyMsg T codec H (buff.read h) c).2 := by
  by_cases hlen : buff.len = 0
  · have hread : buff.read h = [] := by simp [Slice.read, hlen]
    have hres : NotifyMsgMem T codec H h buff c =
        { heap := h, forwarded := none, cluster := c, calls := [] } := by
      simp only [NotifyMsgMem, hlen, if_true]
    rw [hres, hread]
    exact ⟨rfl, rfl, rfl, rfl⟩
  · cases hread : buff.read h with
    | nil =>
      have hres : NotifyMsgMem T codec H h buff c =
          { heap := h, forwarded := none, cluster := c, calls := [] } := by
        simp only [NotifyMsgMem, hlen, if_false, hread]
      rw [hres]
      exact ⟨rfl, rfl, rfl, rfl⟩
    | cons msgType payload =>
      have hf := hno msgType payload hread
      have hres : NotifyMsgMem T codec H h buff c =
          { heap := h, forwarded := none,
            cluster := { c with core := (dispatch T codec H msgType payload c.core).2.2.1 },
            calls := (dispatch T codec H msgType payload c.core).2.2.2 } := by
        simp only [NotifyMsgMem, hlen, if_false, hread, hf, Bool.false_eq_true]
      rw [hres, NotifyMsg_cons, hf]
      exact ⟨rfl, rfl, rfl, rfl⟩

/-- Claim C10: NotifyMsg run on a heap, its buffer a slice within an allocated
array, computes what NotifyMsg computes on the bytes of the buffer; it hands a
slice to fanoutBuffer exactly when a fanoutBuffer call is recorded, and then
that slice is fresh (its array was not allocated before the call, so it shares
no storage with the received buffer), has the length of the received buffer and
denotes its bytes, tag byte included, which are the bytes the call carries;
every array allocated before the call, that of the received buffer among them,
holds after the call what it held before; and writing the array of the
received buffer afterwards does not change the bytes handed over. -/
theorem NotifyMsg_forwards_fresh_copy {Tags σ : Type} (T : MessageTypes) (codec : Codec Tags)
    (H : Handlers σ) (h : Heap) (buff : Slice) (c : Cluster Tags σ)
    (hs : buff.array < h.length)
    (hb : buff.off + buff.len ≤ (h.getD buff.array []).length) :
    (NotifyMsgMem T codec H h buff c).cluster = (NotifyMsg T codec H (buff.read h) c).1 ∧
    (NotifyMsgMem T codec H h buff c).calls = (NotifyMsg T codec H (buff.read h) c).2 ∧
    ((∃ q bytes, Call.fanoutBuffer q bytes ∈ (NotifyMsgMem T codec H h buff c).calls) ↔
      ∃ q dup, (NotifyMsgMem T codec H h buff c).forwarded = some (q, dup)) ∧
    (∀ q dup, (NotifyMsgMem T codec H h buff c).forwarded = some (q, dup) →
      h.length ≤ dup.array ∧ dup.array ≠ buff.array ∧
      dup.len = buff.len ∧
      dup.read (NotifyMsgMem T codec H h buff c).heap = buff.read h ∧
      (dup.read (NotifyMsgMem T codec H h buff c).heap).length = buff.len ∧
      Call.fanoutBuffer q (dup.read (NotifyMsgMem T codec H h buff c).heap) ∈
        (NotifyMsgMem T codec H h buff c).calls ∧
      (NotifyMsgMem T codec H h buff c).cluster =
        fanoutBuffer q (dup.read (NotifyMsgMem T codec H h buff c).heap)
          { c with core := (NotifyMsgMem T codec H h buff c).cluster.core } ∧
      ∀ arr, dup.read ((NotifyMsgMem T codec H h buff c).heap.set buff.array arr)
        = buff.read h) ∧
    (NotifyMsgMem T codec H h buff c).heap.take h.length = h ∧
    buff.read (NotifyMsgMem T codec H h buff c).heap = buff.read h := by
  by_cases hfw : ∃ msgType payload, buff.read h = msgType :: payload ∧
      (dispatch T codec H msgType payload c.core).2.1 = true
  · obtain ⟨msgType, payload, hread, hf⟩ := hfw
    have hlen : buff.len ≠ 0 := by
      intro h0
      have : buff.read h = [] := by simp [Slice.read, h0]
      rw [this] at hread
      cases hread
    rw [NotifyMsgMem_forward T codec H h buff c msgType payload hs hlen hread hf]
    have hdup : ({ array := h.length, off := 0, len := buff.len } : Slice).read
        (h ++ [buff.read h]) = buff.read h := read_dup h buff
    have hval : NotifyMsg T codec H (buff.read h) c =
        (fanoutBuffer (dispatch T codec H msgType payload c.core).1 (buff.read h)
            { c with core := (dispatch T codec H msgType payload c.core).2.2.1 },
         (dispatch T codec H msgType payload c.core).2.2.2 ++
            [Call.fanoutBuffer (dispatch T codec H msgType payload c.core).1 (buff.read h)]) := by
      rw [hread, NotifyMsg_cons, if_pos hf]
    refine ⟨by rw [hval], by rw [hval], ?_, ?_, by simp, ?_⟩
    · exact ⟨fun _ => ⟨_, _, rfl⟩,
        fun _ => ⟨(dispatch T codec H msgType payload c.core).1, buff.read h,
          List.mem_append_right _ (List.mem_singleton.mpr rfl)⟩⟩
    · intro q dup hq
      simp only [Option.some.injEq, Prod.mk.injEq] at hq
      obtain ⟨rfl, rfl⟩ := hq
      refine ⟨le_refl _, ?_, rfl, hdup, ?_, ?_, ?_, ?_⟩
      · show h.length ≠ buff.array
        omega
      · exact (congrArg List.length hdup).trans (Slice.read_length h buff hb)
      · show Call.fanoutBuffer _ (Slice.read (h ++ [buff.read h])
            { array := h.length, off := 0, len := buff.len }) ∈ _ ++ [_]
        rw [hdup]
        exact List.mem_append_right _ (List.mem_singleton.mpr rfl)
      · show fanoutBuffer _ (buff.read h) _ = fanoutBuffer _ (Slice.read (h ++ [buff.read h])
            { array := h.length, off := 0, len := buff.len }) _
        rw [hdup]
        cases (dispatch T codec H msgType payload c.core).1 with
        | none => rfl
        | some q => cases q <;> rfl
      · intro arr
        show Slice.read ((h ++ [buff.read h]).set buff.array arr)
            { array := h.length, off := 0, len := buff.len } = buff.read h
        rw [List.set_append_left _ _ hs]
        have hl : (h.set buff.array arr).length = h.length := List.length_set _ _ _
        have hgetd : (h.set buff.array arr ++ [buff.read h]).getD h.length [] = buff.read h := by
          rw [← hl]
          simp
        simp only [Slice.read] at hgetd ⊢
        rw [hgetd, List.drop_zero, List.take_take, min_self]
    · exact Slice.read_append h _ buff hs
  · have hno : ∀ msgType payload, buff.read h = msgType :: payload →
        (dispatch T codec H msgType payload c.core).2.1 = false := by
      intro msgType payload hread
      by_contra hcon
      exact hfw ⟨msgType, payload, hread, by simpa using hcon⟩
    obtain ⟨h1, h2, h3, h4⟩ := NotifyMsgMem_no_forward T codec H h buff c hno
    have hnocall : ∀ q bytes, Call.fanoutBuffer q bytes ∉ (NotifyMsg T codec H (buff.read h) c).2 := by
      intro q bytes hmem
      cases hread : buff.read h with
      | nil => rw [hread] at hmem; simp [NotifyMsg] at hmem
      | cons msgType payload =>
        rw [hread, NotifyMsg_cons, hno msgType payload hread] at hmem
        exact dispatch_log_no_fanout T codec H msgType payload c.core q bytes (by simpa using hmem)
    refine ⟨h3, h4, ?_, ?_, ?_, ?_⟩
    · rw [h4, h2]
      exact ⟨fun ⟨q, bytes, hmem⟩ => absurd hmem (hnocall q bytes), fun ⟨_, _, hq⟩ => by cases hq⟩
    · intro q dup hq
      rw [h2] at hq
      cases hq
    · rw [h1]; simp
    · rw [h1]

/-- Witness for C10: the accepted join [0, 66, 5], received as the slice at
offset 1 of length 3 of the array at address 1, is handed to the membership
queue as the slice of a new array at address 2 holding [0, 66, 5]; the two
arrays allocated before are as they were. -/
theorem NotifyMsg_forwards_fresh_copy_witness :
    (NotifyMsgMem exampleTypes exampleCodec exampleHandlers [[9, 9], [7, 0, 66, 5, 8]]
      { array := 1, off := 1, len := 3 } exampleCluster).forwarded =
        some (some QueueId.memberMessageSendQueue, { array := 2, off := 0, len := 3 }) ∧
    (NotifyMsgMem exampleTypes exampleCodec exampleHandlers [[9, 9], [7, 0, 66, 5, 8]]
      { array := 1, off := 1, len := 3 } exampleCluster).heap =
        [[9, 9], [7, 0, 66, 5, 8], [0, 66, 5]] ∧
    ({ array := 2, off := 0, len := 3 } : Slice).read
      (NotifyMsgMem exampleTypes exampleCodec exampleHandlers [[9, 9], [7, 0, 66, 5, 8]]
        { array := 1, off := 1, len := 3 } exampleCluster).heap = [0, 66, 5] ∧
    ({ array := 2, off := 0, len := 3 } : Slice).read
      ((NotifyMsgMem exampleTypes exampleCodec exampleHandlers [[9, 9], [7, 0, 66, 5, 8]]
        { array := 1, off := 1, len := 3 } exampleCluster).heap.set 1 [1, 1, 1, 1, 1])
      = [0, 66, 5] := by
  have h := (NotifyMsg_forwards_fresh_copy exampleTypes exampleCodec exampleHandlers
    [[9, 9], [7, 0, 66, 5, 8]] { array := 1, off := 1, len := 3 } exampleCluster
    (by decide) (by decide)).2.2.2.1 (some QueueId.memberMessageSendQueue)
    { array := 2, off := 0, len := 3 } (by decide)
  exact ⟨by decide, by decide, h.2.2.2.1.trans (by decide),
    (h.2.2.2.2.2.2.2 [1, 1, 1, 1, 1]).trans (by decide)⟩

/-! ## Node metadata and outgoing broadcasts -/

/-- Claim C6: NodeMeta returns the packed tags unchanged when packing succeeds
and their length is at most the limit, and the empty slice when packing fails
or the packed tags are longer than the limit; hence for a byte limit (a count
of bytes, not negative) the result is never longer than the limit. -/
theorem NodeMeta_within_limit {Tags σ : Type} (codec : Codec Tags) (c : Cluster Tags σ)
    (limit : Int) :
    (∀ nodeTags, codec.PackNodeTags c.NodeTags = some nodeTags →
        (nodeTags.length : Int) ≤ limit → NodeMeta codec c limit = nodeTags) ∧
    (codec.PackNodeTags c.NodeTags = none → NodeMeta codec c limit = []) ∧
    (∀ nodeTags, codec.PackNodeTags c.NodeTags = some nodeTags →
        limit < (nodeTags.length : Int) → NodeMeta codec c limit = []) ∧
    (0 ≤ limit → ((NodeMeta codec c limit).length : Int) ≤ limit) := by
  refine ⟨?_, ?_, ?_, ?_⟩
  · intro nodeTags h hle
    simp [NodeMeta, h, not_lt.mpr hle]
  · intro h
    simp [NodeMeta, h, makeBytes]
  · intro nodeTags h hlt
    simp [NodeMeta, h, hlt, makeBytes]
  · intro hl
    unfold NodeMeta
    split
    · simpa [makeBytes] using hl
    · split
      · simpa [makeBytes] using hl
      · next hn => exact not_lt.mp hn

/-- Witness for C6: the three example tag bytes pack to three bytes, returned
whole under a limit of 3 and replaced by the empty slice under a limit of 2. -/
theorem NodeMeta_within_limit_witness :
    exampleCodec.PackNodeTags exampleCluster.NodeTags = some [1, 2, 3] ∧
    NodeMeta exampleCodec exampleCluster 3 = [1, 2, 3] ∧
    NodeMeta exampleCodec exampleCluster 2 = [] ∧
    ((NodeMeta exampleCodec exampleCluster 2).length : Int) ≤ 2 :=
  ⟨rfl,
   (NodeMeta_within_limit exampleCodec exampleCluster 3).1 [1, 2, 3] rfl (by decide),
   (NodeMeta_within_limit exampleCodec exampleCluster 2).2.2.1 [1, 2, 3] rfl (by decide),
   (NodeMeta_within_limit exampleCodec exampleCluster 2).2.2.2 (by decide)⟩

/-- Wrapping is unchanged by wrapping a summand first. -/
theorem wrapInt_add_wrapInt (a b : Int) : wrapInt (wrapInt a + b) = wrapInt (a + b) := by
  unfold wrapInt
  omega

/-- A value in the range of a Go int is unchanged by wrapping. -/
theorem wrapInt_of_range (x : Int) (hlo : -9223372036854775808 ≤ x)
    (hhi : x < 9223372036854775808) : wrapInt x = x := by
  unfold wrapInt
  omega

/-- The running size of the loop of GetBroadcasts agrees, after wrapping, with
the start value plus the sum of the message lengths. -/
theorem foldl_size_wrapInt (l : List Bytes) (init : Int) :
    wrapInt (l.foldl (fun size msg => wrapInt (size + (msg.length : Int))) init) =
      wrapInt (init + (l.map (fun msg => (msg.length : Int))).sum) := by
  induction l generalizing init with
  | nil => simp
  | cons x l ih =>
    simp only [List.foldl_cons, List.map_cons, List.sum_cons]
    rw [ih, wrapInt_add_wrapInt, add_assoc]

/-- The budget left for the request queue, computed in Go int arithmetic, is
the limit minus the consumed bytes, as a Go int. -/
theorem budget_eq (overhead limit : Int) (l : List Bytes) :
    wrapInt (limit - broadcastSize overhead l) = wrapInt (limit - consumedBytes overhead l) := by
  have h := foldl_size_wrapInt l (wrapInt (overhead * (l.length : Int)))
  rw [wrapInt_add_wrapInt] at h
  unfold broadcastSize consumedBytes
  generalize l.foldl (fun size msg => wrapInt (size + (msg.length : Int)))
    (wrapInt (overhead * (l.length : Int))) = a at h ⊢
  generalize overhead * (l.length : Int) + (l.map (fun msg => (msg.length : Int))).sum = b at h ⊢
  unfold wrapInt at h ⊢
  omega

/-- Claim C5: GetBroadcasts drains the membership queue with (overhead, limit),
then the request queue with (overhead, limit - consumed) in Go int arithmetic,
where consumed is the overhead times the number of membership messages
returned plus the sum of their lengths, and returns the membership messages
followed by the request messages, each group as its queue returned it; when
limit - consumed is in the range of a Go int the budget is exactly that. -/
theorem GetBroadcasts_member_then_request {Tags σ : Type}
    (drain : List Bytes → Int → Int → List Bytes × List Bytes) (overhead limit : Int)
    (c : Cluster Tags σ) :
    GetBroadcasts drain overhead limit c =
      ((drain c.memberMessageSendQueue overhead limit).1 ++
        (drain c.requestMessageSendQueue overhead
          (wrapInt (limit -
            consumedBytes overhead (drain c.memberMessageSendQueue overhead limit).1))).1,
       { c with
          memberMessageSendQueue := (drain c.memberMessageSendQueue overhead limit).2
          requestMessageSendQueue :=
            (drain c.requestMessageSendQueue overhead
              (wrapInt (limit -
                consumedBytes overhead (drain c.memberMessageSendQueue overhead limit).1))).2 },
       [Call.queueGetBroadcasts QueueId.memberMessageSendQueue overhead limit,
        Call.queueGetBroadcasts QueueId.requestMessageSendQueue overhead
          (wrapInt (limit -
            consumedBytes overhead (drain c.memberMessageSendQueue overhead limit).1))]) ∧
    (-9223372036854775808 ≤
        limit - consumedBytes overhead (drain c.memberMessageSendQueue overhead limit).1 →
      limit - consumedBytes overhead (drain c.memberMessageSendQueue overhead limit).1
        < 9223372036854775808 →
      wrapInt (limit - consumedBytes overhead (drain c.memberMessageSendQueue overhead limit).1)
        = limit - consumedBytes overhead (drain c.memberMessageSendQueue overhead limit).1) := by
  refine ⟨?_, fun hlo hhi => wrapInt_of_range _ hlo hhi⟩
  simp only [GetBroadcasts, budget_eq]

/-- Witness for C5: with two 3-byte membership messages and one 2-byte request
pending, overhead 2 and limit 14, the membership drain consumes 10 bytes, the
request queue is drained with budget 4 and all three messages are returned,
membership first. -/
theorem GetBroadcasts_member_then_request_witness :
    (GetBroadcasts exampleDrain 2 14
      { exampleCluster with
          memberMessageSendQueue := [[0, 66, 5], [1, 67, 7]]
          requestMessageSendQueue := [[2, 65]] }).1 = [[0, 66, 5], [1, 67, 7], [2, 65]] ∧
    wrapInt (14 - consumedBytes 2 [[0, 66, 5], [1, 67, 7]]) = 4 := by
  have h := GetBroadcasts_member_then_request exampleDrain 2 14
    { exampleCluster with
        memberMessageSendQueue := [[0, 66, 5], [1, 67, 7]]
        requestMessageSendQueue := [[2, 65]] }
  exact ⟨(congrArg Prod.fst h.1).trans (by decide), (h.2 (by decide) (by decide)).trans (by decide)⟩

/-! ## Anti-entropy merge: MergeRemoteState -/

/-- StrInSlice is membership in the slice. -/
theorem StrInSlice_iff (name : String) (l : List String) : StrInSlice name l = true ↔ name ∈ l := by
  simp [StrInSlice]

/-- The first loop collects the names in order and records one leave per name;
its core is the replay of those calls. -/
theorem mergeLeaves_spec {σ : Type} (H : Handlers σ) (times : List (String × logicalTime))
    (names acc : List String) (core : Core σ) (log : List Call) :
    mergeLeaves H times names (acc, core, log) =
      (acc ++ names,
       (names.map (fun name => Call.operateNodeLeave
          { LeaveTime := mapIndex times name, NodeName := name })).foldl (replayCall H) core,
       log ++ names.map (fun name => Call.operateNodeLeave
          { LeaveTime := mapIndex times name, NodeName := name })) := by
  induction names generalizing acc core log with
  | nil => simp [mergeLeaves]
  | cons name rest ih =>
    simp only [mergeLeaves, ih, List.map_cons, List.foldl_cons, replayCall, List.append_assoc,
      List.singleton_append]

/-- The second loop records one join per map entry whose name is not in the
collected names; its core is the replay of those calls. -/
theorem mergeJoins_spec {σ : Type} (H : Handlers σ) (left : List String)
    (times : List (String × logicalTime)) (core : Core σ) (log : List Call) :
    mergeJoins H left times (core, log) =
      (((times.filter (fun e => decide (e.1 ∉ left))).map
          (fun e => Call.operateNodeJoin { JoinTime := e.2, NodeName := e.1 })).foldl
            (replayCall H) core,
       log ++ (times.filter (fun e => decide (e.1 ∉ left))).map
          (fun e => Call.operateNodeJoin { JoinTime := e.2, NodeName := e.1 })) := by
  induction times generalizing core log with
  | nil => simp [mergeJoins]
  | cons e rest ih =>
    obtain ⟨name, t⟩ := e
    by_cases hmem : name ∈ left
    · have hs : StrInSlice name left = true := (StrInSlice_iff name left).mpr hmem
      simp [mergeJoins, hs, ih, hmem]
    · have hs : StrInSlice name left = false := by
        rw [← Bool.not_eq_true, StrInSlice_iff]; exact hmem
      simp [mergeJoins, hs, ih, hmem, replayCall]

/-- MergeRemoteState does not look at the tag byte when it decides what to do:
any tag gives the result of the statePushPullMessage tag. -/
theorem MergeRemoteState_any_tag {Tags σ : Type} (T : MessageTypes) (codec : Codec Tags)
    (H : Handlers σ) (msgType : Byte) (payload : Bytes) (isJoin : Bool) (c : Cluster Tags σ) :
    MergeRemoteState T codec H (msgType :: payload) isJoin c =
      MergeRemoteState T codec H (T.statePushPullMessage :: payload) isJoin c := rfl

/-- The calls of MergeRemoteState on a payload that decodes: the clock
witnesses, then the leaves, then the joins; the core it leaves is the replay
of those calls. -/
theorem MergeRemoteState_decoded {Tags σ : Type} (T : MessageTypes) (codec : Codec Tags)
    (H : Handlers σ) (msgType : Byte) (payload : Bytes) (isJoin : Bool) (c : Cluster Tags σ)
    (msg : messagePushPull) (h : codec.unpackPushPull payload = some msg) :
    MergeRemoteState T codec H (msgType :: payload) isJoin c =
      ({ c with core := (clockCalls msg ++ leaveCalls msg ++ joinCalls msg).foldl
                          (replayCall H) c.core },
       clockCalls msg ++ leaveCalls msg ++ joinCalls msg) := by
  simp only [MergeRemoteState, h, mergeLeaves_spec, mergeJoins_spec, List.nil_append,
    clockCalls, leaveCalls, joinCalls, List.foldl_append]
  by_cases hm : msg.MemberClockTime > 0 <;> by_cases hr : msg.RequestClockTime > 0 <;>
    simp [hm, hr, replayCall]

/-- Filtering the recorded calls of a decoded merge for membership calls keeps
the leaves and the joins. -/
theorem filter_isMembership (msg : messagePushPull) :
    (clockCalls msg ++ leaveCalls msg ++ joinCalls msg).filter Call.isMembership =
      leaveCalls msg ++ joinCalls msg := by
  have hc : (clockCalls msg).filter Call.isMembership = [] := by
    unfold clockCalls
    split <;> split <;> simp [Call.isMembership]
  have hl : (leaveCalls msg).filter Call.isMembership = leaveCalls msg := by
    rw [List.filter_eq_self]
    intro a ha
    simp only [leaveCalls, List.mem_map] at ha
    obtain ⟨n, -, rfl⟩ := ha
    rfl
  have hj : (joinCalls msg).filter Call.isMembership = joinCalls msg := by
    rw [List.filter_eq_self]
    intro a ha
    simp only [joinCalls, List.mem_map] at ha
    obtain ⟨n, -, rfl⟩ := ha
    rfl
  rw [List.filter_append, List.filter_append, hc, hl, hj, List.nil_append]

/-- Filtering the recorded calls of a decoded merge for clock witnesses keeps
the clock calls. -/
theorem filter_isClockUpdate (msg : messagePushPull) :
    (clockCalls msg ++ leaveCalls msg ++ joinCalls msg).filter Call.isClockUpdate =
      clockCalls msg := by
  have hc : (clockCalls msg).filter Call.isClockUpdate = clockCalls msg := by
    unfold clockCalls
    split <;> split <;> simp [Call.isClockUpdate]
  have hl : (leaveCalls msg).filter Call.isClockUpdate = [] := by
    rw [List.filter_eq_nil_iff]
    intro a ha
    simp only [leaveCalls, List.mem_map] at ha
    obtain ⟨n, -, rfl⟩ := ha
    simp [Call.isClockUpdate]
  have hj : (joinCalls msg).filter Call.isClockUpdate = [] := by
    rw [List.filter_eq_nil_iff]
    intro a ha
    simp only [joinCalls, List.mem_map] at ha
    obtain ⟨n, -, rfl⟩ := ha
    simp [Call.isClockUpdate]
  rw [List.filter_append, List.filter_append, hc, hl, hj, List.append_nil, List.append_nil]

/-- A join is among the recorded calls of a decoded merge exactly when its name
and time are an entry of the map and the name is not a left member. -/
theorem join_mem_calls (msg : messagePushPull) (name : String) (t : logicalTime) :
    Call.operateNodeJoin { JoinTime := t, NodeName := name } ∈
        clockCalls msg ++ leaveCalls msg ++ joinCalls msg ↔
      (name, t) ∈ msg.MemberLastMessageTimes ∧ name ∉ msg.LeftMemberNames := by
  have hc : Call.operateNodeJoin { JoinTime := t, NodeName := name } ∉ clockCalls msg := by
    unfold clockCalls
    split <;> split <;> simp
  have hl : Call.operateNodeJoin { JoinTime := t, NodeName := name } ∉ leaveCalls msg := by
    simp [leaveCalls]
  simp only [List.mem_append, hc, hl, false_or, joinCalls, List.mem_map, List.mem_filter,
    decide_eq_true_eq, Call.operateNodeJoin.injEq, messageMemberJoin.mk.injEq]
  constructor
  · rintro ⟨⟨n, u⟩, ⟨hmem, hnot⟩, hn, hu⟩
    simp only at hn hu hnot
    subst hn hu
    exact ⟨hmem, hnot⟩
  · rintro ⟨hmem, hnot⟩
    exact ⟨(name, t), ⟨hmem, hnot⟩, rfl, rfl⟩

/-- With distinct keys, the join of an entry whose name is not a left member
is recorded exactly once. -/
theorem join_count_calls (msg : messagePushPull)
    (hk : (msg.MemberLastMessageTimes.map Prod.fst).Nodup) (name : String) (t : logicalTime)
    (hmem : (name, t) ∈ msg.MemberLastMessageTimes) (hnot : name ∉ msg.LeftMemberNames) :
    (clockCalls msg ++ leaveCalls msg ++ joinCalls msg).count
      (Call.operateNodeJoin { JoinTime := t, NodeName := name }) = 1 := by
  have hc : (clockCalls msg).count (Call.operateNodeJoin { JoinTime := t, NodeName := name }) = 0 := by
    rw [List.count_eq_zero]
    unfold clockCalls
    split <;> split <;> simp
  have hl : (leaveCalls msg).count (Call.operateNodeJoin { JoinTime := t, NodeName := name }) = 0 := by
    rw [List.count_eq_zero]
    simp [leaveCalls]
  have hinj : Function.Injective
      (fun e : String × logicalTime => Call.operateNodeJoin { JoinTime := e.2, NodeName := e.1 }) := by
    rintro ⟨a, b⟩ ⟨a2, b2⟩ he
    simp only [Call.operateNodeJoin.injEq, messageMemberJoin.mk.injEq] at he
    rw [he.1, he.2]
  have hnd : (joinCalls msg).Nodup :=
    ((List.Nodup.of_map Prod.fst hk).filter _).map hinj
  have hin : Call.operateNodeJoin { JoinTime := t, NodeName := name } ∈ joinCalls msg := by
    simp only [joinCalls, List.mem_map, List.mem_filter, decide_eq_true_eq]
    exact ⟨(name, t), ⟨hmem, hnot⟩, rfl⟩
  rw [List.count_append, List.count_append, hc, hl, List.count_eq_one_of_mem hnd hin]

/-- Claim C1, evaluated on the code: a buffer whose first byte is the
MemberJoin tag 0, not the StatePushPull tag 5, and whose remaining bytes decode
as a push/pull message is not dropped by MergeRemoteState; both clocks are
witnessed, the leave of B and the join of C are applied. -/
theorem MergeRemoteState_wrong_tag_is_merged :
    (0 : Byte) ≠ exampleTypes.statePushPullMessage ∧
    MergeRemoteState exampleTypes exampleCodec exampleHandlers
        [0, 5, 3, 1, 66, 66, 6, 67, 2] true exampleCluster =
      ({ exampleCluster with
          core := { memberClock := 6, requestClock := 2,
                    app := { members := [("C", 2)], leftMembers := [("B", 6)] } } },
       [Call.memberClockUpdate 4, Call.requestClockUpdate 2,
        Call.operateNodeLeave { NodeName := "B", LeaveTime := 6 },
        Call.operateNodeJoin { NodeName := "C", JoinTime := 2 }]) :=
  ⟨by decide, by decide⟩

/-- Claim C2: on a push/pull payload that decodes, the membership calls of
MergeRemoteState are one leave per entry of the left member list, in list
order, followed by one join per map entry whose name is not in that list, at
its mapped time; no join is made for a name of the left member list; with the
distinct keys of a map each such join is made exactly once and at no other
time; and the core left behind is the replay of the recorded calls in order. -/
theorem MergeRemoteState_leaves_then_joins {Tags σ : Type} (T : MessageTypes)
    (codec : Codec Tags) (H : Handlers σ) (msgType : Byte) (payload : Bytes) (isJoin : Bool)
    (c : Cluster Tags σ) (msg : messagePushPull)
    (h : codec.unpackPushPull payload = some msg) :
    (MergeRemoteState T codec H (msgType :: payload) isJoin c).2.filter Call.isMembership =
      msg.LeftMemberNames.map (fun name => Call.operateNodeLeave
        { LeaveTime := mapIndex msg.MemberLastMessageTimes name, NodeName := name }) ++
      (msg.MemberLastMessageTimes.filter (fun e => decide (e.1 ∉ msg.LeftMemberNames))).map
        (fun e => Call.operateNodeJoin { JoinTime := e.2, NodeName := e.1 }) ∧
    (∀ name t, name ∈ msg.LeftMemberNames →
      Call.operateNodeJoin { JoinTime := t, NodeName := name } ∉
        (MergeRemoteState T codec H (msgType :: payload) isJoin c).2) ∧
    ((msg.MemberLastMessageTimes.map Prod.fst).Nodup →
      ∀ name t, (name, t) ∈ msg.MemberLastMessageTimes → name ∉ msg.LeftMemberNames →
        (MergeRemoteState T codec H (msgType :: payload) isJoin c).2.count
            (Call.operateNodeJoin { JoinTime := t, NodeName := name }) = 1 ∧
        ∀ u, Call.operateNodeJoin { JoinTime := u, NodeName := name } ∈
            (MergeRemoteState T codec H (msgType :: payload) isJoin c).2 → u = t) ∧
    (MergeRemoteState T codec H (msgType :: payload) isJoin c).1 =
      { c with core := (MergeRemoteState T codec H (msgType :: payload) isJoin c).2.foldl
                          (replayCall H) c.core } := by
  rw [MergeRemoteState_decoded T codec H msgType payload isJoin c msg h]
  refine ⟨filter_isMembership msg, ?_, ?_, rfl⟩
  · intro name t hin hmem
    exact ((join_mem_calls msg name t).mp hmem).2 hin
  · intro hk name t hmem hnot
    refine ⟨join_count_calls msg hk name t hmem hnot, ?_⟩
    intro u hu
    have hmem2 := ((join_mem_calls msg name u).mp hu).1
    have := List.inj_on_of_nodup_map hk hmem2 hmem rfl
    exact (Prod.mk.inj this).2

/-- Witness for C2: left = [B] and lastSeen = (B: 6, C: 2) yield exactly the
leave of B at 6 followed by the join of C at 2. -/
theorem MergeRemoteState_leaves_then_joins_witness :
    exampleCodec.unpackPushPull [5, 3, 1, 66, 66, 6, 67, 2] =
      some { MemberClockTime := 5, RequestClockTime := 3,
             MemberLastMessageTimes := [("B", 6), ("C", 2)], LeftMemberNames := ["B"] } ∧
    (MergeRemoteState exampleTypes exampleCodec exampleHandlers
        [5, 5, 3, 1, 66, 66, 6, 67, 2] true exampleCluster).2.filter Call.isMembership =
      [Call.operateNodeLeave { NodeName := "B", LeaveTime := 6 },
       Call.operateNodeJoin { NodeName := "C", JoinTime := 2 }] :=
  ⟨by decide,
   (MergeRemoteState_leaves_then_joins exampleTypes exampleCodec exampleHandlers 5
      [5, 3, 1, 66, 66, 6, 67, 2] true exampleCluster
      { MemberClockTime := 5, RequestClockTime := 3,
        MemberLastMessageTimes := [("B", 6), ("C", 2)], LeftMemberNames := ["B"] }
      (by decide)).1.trans (by decide)⟩

/-- Claim C9: on a push/pull payload that decodes (its clock times being
unsigned 64-bit values), the clock witnesses of MergeRemoteState are: the
membership clock with the remote membership time minus one exactly when that
time is positive, then the request clock with the remote request time minus
one exactly when that time is positive; a time of 0 gives no witness for that
clock, and the unsigned subtraction made is the true predecessor (no wrap).
The witnesses are the first calls made, and the cluster returned is the one in
which each clock so witnessed has been advanced by Update, the other left as it
was, and the leave and join handlers have then run on that core. -/
theorem MergeRemoteState_witnesses_predecessor {Tags σ : Type} (T : MessageTypes)
    (codec : Codec Tags) (H : Handlers σ) (msgType : Byte) (payload : Bytes) (isJoin : Bool)
    (c : Cluster Tags σ) (msg : messagePushPull)
    (h : codec.unpackPushPull payload = some msg)
    (hm : msg.MemberClockTime < u64Size) (hr : msg.RequestClockTime < u64Size) :
    (MergeRemoteState T codec H (msgType :: payload) isJoin c).2.filter Call.isClockUpdate =
      (if 0 < msg.MemberClockTime then [Call.memberClockUpdate (msg.MemberClockTime - 1)]
       else []) ++
      (if 0 < msg.RequestClockTime then [Call.requestClockUpdate (msg.RequestClockTime - 1)]
       else []) ∧
    (0 < msg.MemberClockTime → subU64 msg.MemberClockTime 1 + 1 = msg.MemberClockTime) ∧
    (0 < msg.RequestClockTime → subU64 msg.RequestClockTime 1 + 1 = msg.RequestClockTime) ∧
    (MergeRemoteState T codec H (msgType :: payload) isJoin c).2 =
      ((if 0 < msg.MemberClockTime then [Call.memberClockUpdate (msg.MemberClockTime - 1)]
        else []) ++
       (if 0 < msg.RequestClockTime then [Call.requestClockUpdate (msg.RequestClockTime - 1)]
        else [])) ++ (leaveCalls msg ++ joinCalls msg) ∧
    (MergeRemoteState T codec H (msgType :: payload) isJoin c).1 =
      { c with core := ((leaveCalls msg ++ joinCalls msg).foldl (replayCall H)
          { c.core with
              memberClock :=
                (if 0 < msg.MemberClockTime
                 then clockUpdate c.core.memberClock (msg.MemberClockTime - 1)
                 else c.core.memberClock)
              requestClock :=
                (if 0 < msg.RequestClockTime
                 then clockUpdate c.core.requestClock (msg.RequestClockTime - 1)
                 else c.core.requestClock) }) } ∧
    (MergeRemoteState T codec H (msgType :: payload) isJoin c).1 =
      { c with core := ((MergeRemoteState T codec H (msgType :: payload) isJoin c).2.foldl
                          (replayCall H) c.core) } := by
  have hsub : ∀ t, t < u64Size → 0 < t → subU64 t 1 = t - 1 := by
    intro t ht hpos
    unfold subU64
    unfold u64Size at ht ⊢
    omega
  have hcalls : clockCalls msg =
      (if 0 < msg.MemberClockTime then [Call.memberClockUpdate (msg.MemberClockTime - 1)]
       else []) ++
      (if 0 < msg.RequestClockTime then [Call.requestClockUpdate (msg.RequestClockTime - 1)]
       else []) := by
    unfold clockCalls
    by_cases h1 : 0 < msg.MemberClockTime <;> by_cases h2 : 0 < msg.RequestClockTime <;>
      simp [h1, h2, hsub _ hm, hsub _ hr]
  rw [MergeRemoteState_decoded T codec H msgType payload isJoin c msg h, filter_isClockUpdate]
  refine ⟨hcalls, ?_, ?_, ?_, ?_, rfl⟩
  · intro hpos
    rw [hsub _ hm hpos]; exact Nat.sub_add_cancel hpos
  · intro hpos
    rw [hsub _ hr hpos]; exact Nat.sub_add_cancel hpos
  · rw [hcalls, List.append_assoc]
  · rw [hcalls, List.append_assoc, List.foldl_append]
    by_cases h1 : 0 < msg.MemberClockTime <;> by_cases h2 : 0 < msg.RequestClockTime <;>
      simp [h1, h2, replayCall]

/-- Witness for C9: remote clock times 5 and 0, on a cluster with both clocks
at 0, give one witness of the membership clock with 4 and none of the request
clock; the cluster returned has its membership clock at 4 and its request clock
still at 0. -/
theorem MergeRemoteState_witnesses_predecessor_witness :
    exampleCodec.unpackPushPull [5, 0, 0] =
      some { MemberClockTime := 5, RequestClockTime := 0,
             MemberLastMessageTimes := [], LeftMemberNames := [] } ∧
    (MergeRemoteState exampleTypes exampleCodec exampleHandlers [5, 5, 0, 0] true
        exampleCluster).2.filter Call.isClockUpdate = [Call.memberClockUpdate 4] ∧
    exampleCluster.core.memberClock = 0 ∧
    (MergeRemoteState exampleTypes exampleCodec exampleHandlers [5, 5, 0, 0] true
        exampleCluster).1 =
      { exampleCluster with core := { exampleCluster.core with memberClock := 4 } } :=
  ⟨by decide,
   (MergeRemoteState_witnesses_predecessor exampleTypes exampleCodec exampleHandlers 5
      [5, 0, 0] true exampleCluster
      { MemberClockTime := 5, RequestClockTime := 0,
        MemberLastMessageTimes := [], LeftMemberNames := [] }
      (by decide) (by decide) (by decide)).1.trans (by decide),
   rfl,
   (MergeRemoteState_witnesses_predecessor exampleTypes exampleCodec exampleHandlers 5
      [5, 0, 0] true exampleCluster
      { MemberClockTime := 5, RequestClockTime := 0,
        MemberLastMessageTimes := [], LeftMemberNames := [] }
      (by decide) (by decide) (by decide)).2.2.2.2.1.trans (by decide)⟩

/-! ## Local state, budgets, leave times and buffer reads -/

/-- Indexing a map whose first entry has the key n. -/
theorem mapIndex_cons (n : String) (u : logicalTime) (rest : List (String × logicalTime))
    (name : String) :
    mapIndex ((n, u) :: rest) name = if n = name then u else mapIndex rest name := by
  by_cases hn : n = name
  · simp [mapIndex, List.find?_cons, hn]
  · have hb : (n == name) = false := by simpa using hn
    simp only [mapIndex, List.find?_cons, hb, hn, if_false]

/-- Indexing a map with distinct keys at the key of one of its entries gives
the value of that entry. -/
theorem mapIndex_of_mem (m : List (String × logicalTime)) (name : String) (t : logicalTime)
    (hk : (m.map Prod.fst).Nodup) (hmem : (name, t) ∈ m) : mapIndex m name = t := by
  induction m with
  | nil => cases hmem
  | cons e rest ih =>
    obtain ⟨n, u⟩ := e
    simp only [List.map_cons, List.nodup_cons, List.mem_map, not_exists, not_and] at hk
    rw [mapIndex_cons]
    by_cases hn : n = name
    · subst hn
      rcases List.mem_cons.mp hmem with heq | hin
      · simp only [Prod.mk.injEq] at heq
        simp [heq.2]
      · exact absurd rfl (hk.1 (n, t) hin)
    · rcases List.mem_cons.mp hmem with heq | hin
      · simp only [Prod.mk.injEq] at heq
        exact absurd heq.1.symm hn
      · rw [if_neg hn]
        exact ih hk.2 hin

/-- Indexing a map at a key it does not hold gives the zero value. -/
theorem mapIndex_of_not_mem (m : List (String × logicalTime)) (name : String)
    (hnot : ∀ t, (name, t) ∉ m) : mapIndex m name = 0 := by
  induction m with
  | nil => rfl
  | cons e rest ih =>
    obtain ⟨n, u⟩ := e
    have hn : n ≠ name := fun h => hnot u (by rw [h]; exact List.mem_cons_self _ _)
    rw [mapIndex_cons, if_neg hn]
    exact ih (fun t hin => hnot t (List.mem_cons_of_mem _ hin))

/-- Filling a map from a table with distinct names appends one entry per
member, in range order. -/
theorem foldl_mapSet (members : List (String × memberStatus))
    (hk : (members.map Prod.fst).Nodup) (acc : List (String × logicalTime))
    (hacc : ∀ e ∈ members, ∀ a ∈ acc, a.1 ≠ e.1) :
    members.foldl (fun m e => mapSet m e.1 e.2.lastMessageTime) acc =
      acc ++ members.map (fun e => (e.1, e.2.lastMessageTime)) := by
  induction members generalizing acc with
  | nil => simp
  | cons e rest ih =>
    simp only [List.map_cons, List.nodup_cons, List.mem_map, not_exists, not_and] at hk
    have hany : acc.any (fun a => a.1 == e.1) = false := by
      rw [List.any_eq_false]
      intro a ha
      simpa using hacc e (List.mem_cons_self _ _) a ha
    have hset : mapSet acc e.1 e.2.lastMessageTime = acc ++ [(e.1, e.2.lastMessageTime)] := by
      simp [mapSet, hany]
    rw [List.foldl_cons, hset, ih hk.2, List.map_cons, List.append_assoc, List.singleton_append]
    intro e2 he2 a ha
    rcases List.mem_append.mp ha with ha | ha
    · exact hacc e2 (List.mem_cons_of_mem _ he2) a ha
    · simp only [List.mem_singleton] at ha
      subst ha
      intro heq
      exact hk.1 e2 he2 heq.symm

/-- Claim C11: LocalState builds the push/pull message whose clock fields are
the Time of the two clocks, whose last-seen map holds one entry per name of the
member table (names being distinct map keys) mapped to that member's
lastMessageTime, and whose left list is the names of the left members; it
returns that message packed under the statePushPullMessage tag, the nil slice
when packing fails, and leaves the cluster (table, left members, clocks,
queues) as it was. -/
theorem LocalState_builds_snapshot {Tags : Type} (T : MessageTypes)
    (PackWithHeader : messagePushPull → Byte → Option Bytes) (join : Bool)
    (c : Cluster Tags memberTable) (hk : (c.core.app.members.map Prod.fst).Nodup) :
    LocalState T PackWithHeader join c =
      (PackWithHeader
        { MemberClockTime := clockTime c.core.memberClock
          RequestClockTime := clockTime c.core.requestClock
          MemberLastMessageTimes := c.core.app.members.map (fun e => (e.1, e.2.lastMessageTime))
          LeftMemberNames := names c.core.app.leftMembers } T.statePushPullMessage, c) ∧
    (c.core.app.members.map (fun e => (e.1, e.2.lastMessageTime))).map Prod.fst
      = c.core.app.members.map Prod.fst ∧
    (∀ name ms, (name, ms) ∈ c.core.app.members →
      mapIndex (c.core.app.members.map (fun e => (e.1, e.2.lastMessageTime))) name
        = ms.lastMessageTime) ∧
    (LocalState T PackWithHeader join c).2 = c := by
  have hfold := foldl_mapSet c.core.app.members hk [] (fun _ _ _ h => absurd h (List.not_mem_nil _))
  have hkeys : (c.core.app.members.map (fun e => (e.1, e.2.lastMessageTime))).map Prod.fst
      = c.core.app.members.map Prod.fst := by
    rw [List.map_map]; rfl
  have hres : LocalState T PackWithHeader join c =
      (PackWithHeader
        { MemberClockTime := clockTime c.core.memberClock
          RequestClockTime := clockTime c.core.requestClock
          MemberLastMessageTimes := c.core.app.members.map (fun e => (e.1, e.2.lastMessageTime))
          LeftMemberNames := names c.core.app.leftMembers } T.statePushPullMessage, c) := by
    simp only [LocalState, hfold, List.nil_append]
    split <;> simp_all
  refine ⟨hres, hkeys, ?_, ?_⟩
  · intro name ms hmem
    apply mapIndex_of_mem
    · rw [hkeys]; exact hk
    · exact List.mem_map.mpr ⟨(name, ms), hmem, rfl⟩
  · rw [hres]

/-- Witness for C11: the example table (C alive since 2, B left at 6) is
packed as clocks 7 and 3, one left name B and the pairs (C, 2), (B, 6), and the
cluster is returned as it was. -/
theorem LocalState_builds_snapshot_witness :
    (exampleTableCluster.core.app.members.map Prod.fst).Nodup ∧
    LocalState exampleTypes examplePackWithHeader true exampleTableCluster =
      (some [5, 7, 3, 1, 66, 67, 2, 66, 6], exampleTableCluster) :=
  ⟨by decide,
   (LocalState_builds_snapshot exampleTypes examplePackWithHeader true exampleTableCluster
      (by decide)).1.trans (by decide)⟩

/-- The consumed bytes of a list of messages are not negative when the overhead
is not. -/
theorem consumedBytes_nonneg (overhead : Int) (ho : 0 ≤ overhead) (l : List Bytes) :
    0 ≤ consumedBytes overhead l := by
  have hs : 0 ≤ (l.map (fun msg => (msg.length : Int))).sum := by
    apply List.sum_nonneg
    intro x hx
    obtain ⟨m, -, rfl⟩ := List.mem_map.mp hx
    exact Int.ofNat_nonneg _
  have hm : 0 ≤ overhead * (l.length : Int) := mul_nonneg ho (Int.ofNat_nonneg _)
  unfold consumedBytes
  omega

/-- The consumed bytes of two lists of messages add up. -/
theorem consumedBytes_append (overhead : Int) (l r : List Bytes) :
    consumedBytes overhead (l ++ r) = consumedBytes overhead l + consumedBytes overhead r := by
  simp only [consumedBytes, List.length_append, List.map_append, List.sum_append, Nat.cast_add]
  ring

/-- Claim C13: for overhead >= 0 and a limit >= 0 (a Go int), if the membership
drain returns messages whose cumulative overhead plus length is within the
limit it was given, and the request drain likewise within the budget it was
given, then the budget passed to the request queue is limit - consumed, which
is not negative, and the list GetBroadcasts returns has cumulative overhead
plus length within the limit. -/
theorem GetBroadcasts_within_limit {Tags σ : Type}
    (drain : List Bytes → Int → Int → List Bytes × List Bytes) (overhead limit : Int)
    (c : Cluster Tags σ) (ho : 0 ≤ overhead) (hl : 0 ≤ limit)
    (hmax : limit < 9223372036854775808)
    (hm : consumedBytes overhead (drain c.memberMessageSendQueue overhead limit).1 ≤ limit)
    (hr : consumedBytes overhead
            (drain c.requestMessageSendQueue overhead
              (limit - consumedBytes overhead
                (drain c.memberMessageSendQueue overhead limit).1)).1 ≤
          limit - consumedBytes overhead (drain c.memberMessageSendQueue overhead limit).1) :
    (GetBroadcasts drain overhead limit c).2.2 =
      [Call.queueGetBroadcasts QueueId.memberMessageSendQueue overhead limit,
       Call.queueGetBroadcasts QueueId.requestMessageSendQueue overhead
        (limit - consumedBytes overhead (drain c.memberMessageSendQueue overhead limit).1)] ∧
    0 ≤ limit - consumedBytes overhead (drain c.memberMessageSendQueue overhead limit).1 ∧
    consumedBytes overhead (GetBroadcasts drain overhead limit c).1 ≤ limit := by
  have hnn := consumedBytes_nonneg overhead ho (drain c.memberMessageSendQueue overhead limit).1
  have hw : wrapInt (limit - broadcastSize overhead
        (drain c.memberMessageSendQueue overhead limit).1) =
      limit - consumedBytes overhead (drain c.memberMessageSendQueue overhead limit).1 := by
    rw [budget_eq]
    apply wrapInt_of_range <;> omega
  refine ⟨?_, by omega, ?_⟩
  · simp only [GetBroadcasts, hw]
  · simp only [GetBroadcasts, hw, consumedBytes_append]
    omega

/-- Witness for C13: two 3-byte membership messages and one 2-byte request,
overhead 2 and limit 14; the request budget is 4 and the three messages
returned take 14 bytes. -/
theorem GetBroadcasts_within_limit_witness :
    (GetBroadcasts exampleDrain 2 14
      { exampleCluster with
          memberMessageSendQueue := [[0, 66, 5], [1, 67, 7]]
          requestMessageSendQueue := [[2, 65]] }).2.2 =
      [Call.queueGetBroadcasts QueueId.memberMessageSendQueue 2 14,
       Call.queueGetBroadcasts QueueId.requestMessageSendQueue 2 4] ∧
    consumedBytes 2 (GetBroadcasts exampleDrain 2 14
      { exampleCluster with
          memberMessageSendQueue := [[0, 66, 5], [1, 67, 7]]
          requestMessageSendQueue := [[2, 65]] }).1 ≤ 14 := by
  have h := GetBroadcasts_within_limit exampleDrain 2 14
    { exampleCluster with
        memberMessageSendQueue := [[0, 66, 5], [1, 67, 7]]
        requestMessageSendQueue := [[2, 65]] }
    (by decide) (by decide) (by decide) (by decide) (by decide)
  exact ⟨h.1.trans (by decide), h.2.2⟩

/-- Claim C14: on a push/pull payload that decodes, every leave MergeRemoteState
applies is for a name of the left list and carries as leave time that name's
entry of the last-seen map, read by map indexing; each left name gets such a
leave; the index is the mapped time when the name has an entry (keys being
distinct) and 0 when the name has no entry.  The leaves are applied to the
state: the cluster returned is the one in which, after the clock witnesses,
operateNodeLeave has run for each left name in order with that leave time, and
the joins have run after it. -/
theorem MergeRemoteState_leave_time {Tags σ : Type} (T : MessageTypes)
    (codec : Codec Tags) (H : Handlers σ) (msgType : Byte) (payload : Bytes) (isJoin : Bool)
    (c : Cluster Tags σ) (msg : messagePushPull)
    (h : codec.unpackPushPull payload = some msg) :
    (∀ m, Call.operateNodeLeave m ∈ (MergeRemoteState T codec H (msgType :: payload) isJoin c).2 →
      m.NodeName ∈ msg.LeftMemberNames ∧
      m.LeaveTime = mapIndex msg.MemberLastMessageTimes m.NodeName) ∧
    (∀ name, name ∈ msg.LeftMemberNames →
      Call.operateNodeLeave
          { NodeName := name, LeaveTime := mapIndex msg.MemberLastMessageTimes name } ∈
        (MergeRemoteState T codec H (msgType :: payload) isJoin c).2) ∧
    (∀ name t, (msg.MemberLastMessageTimes.map Prod.fst).Nodup →
      (name, t) ∈ msg.MemberLastMessageTimes → mapIndex msg.MemberLastMessageTimes name = t) ∧
    (∀ name, (∀ t, (name, t) ∉ msg.MemberLastMessageTimes) →
      mapIndex msg.MemberLastMessageTimes name = 0) ∧
    (MergeRemoteState T codec H (msgType :: payload) isJoin c).1 =
      { c with core := ((joinCalls msg).foldl (replayCall H)
          (msg.LeftMemberNames.foldl
            (fun core name =>
              (H.operateNodeLeave
                { NodeName := name, LeaveTime := mapIndex msg.MemberLastMessageTimes name }
                core).2)
            ((clockCalls msg).foldl (replayCall H) c.core))) } := by
  rw [MergeRemoteState_decoded T codec H msgType payload isJoin c msg h]
  have hc : ∀ m, Call.operateNodeLeave m ∉ clockCalls msg := by
    intro m
    unfold clockCalls
    split <;> split <;> simp
  have hj : ∀ m, Call.operateNodeLeave m ∉ joinCalls msg := by
    intro m
    simp [joinCalls]
  refine ⟨?_, ?_, ?_, ?_, ?_⟩
  · intro m hm
    simp only [List.mem_append, hc, hj, false_or, or_false, leaveCalls, List.mem_map,
      Call.operateNodeLeave.injEq] at hm
    obtain ⟨name, hname, rfl⟩ := hm
    exact ⟨hname, rfl⟩
  · intro name hname
    simp only [List.mem_append, leaveCalls, List.mem_map]
    exact Or.inl (Or.inr ⟨name, hname, rfl⟩)
  · intro name t hk hmem
    exact mapIndex_of_mem _ name t hk hmem
  · intro name hnot
    exact mapIndex_of_not_mem _ name hnot
  · simp only [List.foldl_append, leaveCalls, List.foldl_map]
    rfl

/-- Witness for C14: with left = [B, A] and lastSeen = (B: 6), on a cluster with
no left member, the leave of B carries time 6 and the leave of A, which has no
entry, carries time 0; the example leave handler has recorded both in the
cluster returned, B at 6 and A at 0. -/
theorem MergeRemoteState_leave_time_witness :
    exampleCodec.unpackPushPull [5, 3, 2, 66, 65, 66, 6] =
      some { MemberClockTime := 5, RequestClockTime := 3,
             MemberLastMessageTimes := [("B", 6)], LeftMemberNames := ["B", "A"] } ∧
    Call.operateNodeLeave { NodeName := "B", LeaveTime := 6 } ∈
      (MergeRemoteState exampleTypes exampleCodec exampleHandlers
        [5, 5, 3, 2, 66, 65, 66, 6] true exampleCluster).2 ∧
    Call.operateNodeLeave { NodeName := "A", LeaveTime := 0 } ∈
      (MergeRemoteState exampleTypes exampleCodec exampleHandlers
        [5, 5, 3, 2, 66, 65, 66, 6] true exampleCluster).2 ∧
    exampleCluster.core.app.leftMembers = [] ∧
    (MergeRemoteState exampleTypes exampleCodec exampleHandlers
        [5, 5, 3, 2, 66, 65, 66, 6] true exampleCluster).1.core.app.leftMembers
      = [("B", 6), ("A", 0)] :=
  ⟨by decide,
   (MergeRemoteState_leave_time exampleTypes exampleCodec exampleHandlers 5
      [5, 3, 2, 66, 65, 66, 6] true exampleCluster
      { MemberClockTime := 5, RequestClockTime := 3,
        MemberLastMessageTimes := [("B", 6)], LeftMemberNames := ["B", "A"] }
      (by decide)).2.1 "B" (by decide),
   (MergeRemoteState_leave_time exampleTypes exampleCodec exampleHandlers 5
      [5, 3, 2, 66, 65, 66, 6] true exampleCluster
      { MemberClockTime := 5, RequestClockTime := 3,
        MemberLastMessageTimes := [("B", 6)], LeftMemberNames := ["B", "A"] }
      (by decide)).2.1 "A" (by decide),
   rfl,
   (congrArg (fun r => r.core.app.leftMembers)
      (MergeRemoteState_leave_time exampleTypes exampleCodec exampleHandlers 5
        [5, 3, 2, 66, 65, 66, 6] true exampleCluster
        { MemberClockTime := 5, RequestClockTime := 3,
          MemberLastMessageTimes := [("B", 6)], LeftMemberNames := ["B", "A"] }
        (by decide)).2.2.2.2).trans (by decide)⟩

/-- Claim C15: for a buffer of any length, NotifyMsg and MergeRemoteState with
their reads of the buffer checked never read out of range: the checked runs
return (no panic) what the methods compute; on a non-empty buffer buff[0] is in
range and buff[1:] is in bounds, being empty when the length is 1; on the
empty buffer both return at the length check before any read. -/
theorem buffer_reads_in_bounds {Tags σ : Type} (T : MessageTypes) (codec : Codec Tags)
    (H : Handlers σ) (buff : Bytes) (isJoin : Bool) (c : Cluster Tags σ) :
    NotifyMsgChecked T codec H buff c = some (NotifyMsg T codec H buff c) ∧
    MergeRemoteStateChecked T codec H buff isJoin c
      = some (MergeRemoteState T codec H buff isJoin c) ∧
    (buff.length ≠ 0 → ∃ msgType payload, goIndex buff 0 = some msgType ∧
      goSliceFrom buff 1 = some payload ∧ buff = msgType :: payload) ∧
    (buff.length = 1 → goSliceFrom buff 1 = some []) := by
  cases buff with
  | nil => exact ⟨rfl, rfl, fun h => absurd rfl h, fun h => by simp at h⟩
  | cons b rest =>
    refine ⟨?_, ?_, ?_, ?_⟩
    · simp only [NotifyMsgChecked, NotifyMsg, goIndex, goSliceFrom]
      simp
      split <;> rfl
    · simp [MergeRemoteStateChecked, goIndex, goSliceFrom]
    · intro _
      exact ⟨b, rest, by simp [goIndex], by simp [goSliceFrom], rfl⟩
    · intro hlen
      have : rest = [] := by
        simpa using hlen
      simp [goSliceFrom, this]

/-- Witness for C15: the one-byte buffer [0] has its tag at index 0 and the
empty payload. -/
theorem buffer_reads_in_bounds_witness :
    goIndex ([0] : Bytes) 0 = some 0 ∧ goSliceFrom ([0] : Bytes) 1 = some [] ∧
    NotifyMsgChecked exampleTypes exampleCodec exampleHandlers [0] exampleCluster
      = some (NotifyMsg exampleTypes exampleCodec exampleHandlers [0] exampleCluster) :=
  ⟨by decide,
   (buffer_reads_in_bounds exampleTypes exampleCodec exampleHandlers [0] true exampleCluster).2.2.2
      (by decide),
   (buffer_reads_in_bounds exampleTypes exampleCodec exampleHandlers [0] true exampleCluster).1⟩

/-! ## Merging the local state back -/

/-- In a list with distinct keys, searching for the key of an entry finds that
entry. -/
theorem find_key_of_mem {β : Type} (l : List (String × β)) (n : String) (v : β)
    (hk : (l.map Prod.fst).Nodup) (hmem : (n, v) ∈ l) :
    l.find? (fun e => e.1 == n) = some (n, v) := by
  induction l with
  | nil => cases hmem
  | cons e rest ih =>
    obtain ⟨m, u⟩ := e
    simp only [List.map_cons, List.nodup_cons, List.mem_map, not_exists, not_and] at hk
    rcases List.mem_cons.mp hmem with heq | hin
    · simp only [Prod.mk.injEq] at heq
      simp [List.find?_cons, heq.1, heq.2]
    · have hne : m ≠ n := fun h => hk.1 (n, v) hin h.symm
      have hb : (m == n) = false := by simpa using hne
      simp only [List.find?_cons, hb]
      exact ih hk.2 hin

/-- Overwriting the value at a key with the value every entry of that key
already has changes nothing. -/
theorem map_overwrite_self {β : Type} (l : List (String × β)) (n : String) (v : β)
    (h : ∀ e ∈ l, e.1 = n → e.2 = v) :
    l.map (fun x => if x.1 == n then (x.1, v) else x) = l := by
  induction l with
  | nil => rfl
  | cons e rest ih =>
    rw [List.map_cons, ih (fun x hx => h x (List.mem_cons_of_mem _ hx))]
    by_cases hn : e.1 = n
    · have hv := h e (List.mem_cons_self _ _) hn
      have he : (e.1, v) = e := by rw [← hv]
      have hb : (e.1 == n) = true := by simpa using hn
      simp only [hb, if_true, he]
    · have hb : (e.1 == n) = false := by simpa using hn
      simp [hb]

/-- A replay that keeps the table at every call keeps it over a list of calls. -/
theorem foldl_replay_app {σ : Type} (H : Handlers σ) (tbl : σ) (calls : List Call)
    (h : ∀ call ∈ calls, ∀ core : Core σ, core.app = tbl → (replayCall H core call).app = tbl)
    (core : Core σ) (hc : core.app = tbl) : (calls.foldl (replayCall H) core).app = tbl := by
  induction calls generalizing core with
  | nil => exact hc
  | cons call rest ih =>
    rw [List.foldl_cons]
    exact ih (fun x hx => h x (List.mem_cons_of_mem _ hx)) _
      (h call (List.mem_cons_self _ _) core hc)

/-- The result of LocalState in closed form, for a table with distinct names. -/
theorem LocalState_eq_pack {Tags : Type} (T : MessageTypes)
    (PackWithHeader : messagePushPull → Byte → Option Bytes) (join : Bool)
    (c : Cluster Tags memberTable) (hk : (c.core.app.members.map Prod.fst).Nodup) :
    LocalState T PackWithHeader join c =
      (PackWithHeader
        { MemberClockTime := clockTime c.core.memberClock
          RequestClockTime := clockTime c.core.requestClock
          MemberLastMessageTimes := c.core.app.members.map (fun e => (e.1, e.2.lastMessageTime))
          LeftMemberNames := names c.core.app.leftMembers } T.statePushPullMessage, c) := by
  have hfold := foldl_mapSet c.core.app.members hk [] (fun _ _ _ h => absurd h (List.not_mem_nil _))
  simp only [LocalState, hfold, List.nil_append]
  split <;> simp_all

/-- A leave of a left member at its departure time, the time its node record
carries, leaves the table as it is. -/
theorem operateNodeLeave_recorded (tbl : memberTable) (hk : (tbl.members.map Prod.fst).Nodup)
    (hrec : ∀ name d, (name, d) ∈ tbl.leftMembers →
      (name, { status := nodeStatus.left, lastMessageTime := d }) ∈ tbl.members)
    (name : String) (d : logicalTime) (hmem : (name, d) ∈ tbl.leftMembers)
    (core : Core memberTable) (hc : core.app = tbl) :
    (operateNodeLeave { NodeName := name, LeaveTime := d } core).2.app = tbl := by
  subst hc
  have hin := hrec name d hmem
  have hfind := find_key_of_mem core.app.members name _ hk hin
  have hmembers : core.app.members.map (fun x =>
      if x.1 == name then (x.1, ({ status := nodeStatus.left, lastMessageTime := d } : memberStatus))
      else x) = core.app.members := by
    apply map_overwrite_self
    intro e he hn
    have := List.inj_on_of_nodup_map hk he hin hn
    rw [this]
  have hany : core.app.leftMembers.any (fun e => e.1 == name) = true := by
    rw [List.any_eq_true]
    exact ⟨(name, d), hmem, by simp⟩
  have hleft : recordLeft core.app.leftMembers name d = core.app.leftMembers := by
    simp only [recordLeft, mapSet, hany, if_true]
    apply map_overwrite_self
    intro e he hn
    have he2 : (e.1, e.2) ∈ core.app.leftMembers := he
    have h1 := hrec e.1 e.2 he2
    have := List.inj_on_of_nodup_map hk h1 hin hn
    simp only [Prod.mk.injEq, memberStatus.mk.injEq, true_and] at this
    exact this.2
  simp only [operateNodeLeave, hfind, le_refl, decide_True, if_true, hmembers, hleft]

/-- A join of a member that is not a left member, at the time its node record
carries, leaves the table as it is. -/
theorem operateNodeJoin_recorded (tbl : memberTable) (hk : (tbl.members.map Prod.fst).Nodup)
    (name : String) (ms : memberStatus) (hmem : (name, ms) ∈ tbl.members)
    (hnot : name ∉ names tbl.leftMembers)
    (core : Core memberTable) (hc : core.app = tbl) :
    (operateNodeJoin { NodeName := name, JoinTime := ms.lastMessageTime } core).2.app = tbl := by
  subst hc
  have hfind := find_key_of_mem core.app.members name _ hk hmem
  have hany : core.app.leftMembers.any
      (fun e => e.1 == name && decide (ms.lastMessageTime ≤ e.2)) = false := by
    rw [List.any_eq_false]
    intro e he
    have hne : e.1 ≠ name := by
      intro h
      apply hnot
      rw [← h]
      exact List.mem_map.mpr ⟨e, he, rfl⟩
    simp [hne]
  simp only [operateNodeJoin, hany, hfind, lt_irrefl, Bool.false_eq_true, if_false]

/-- Claim C12 as stated fails on a state with an evicted left member: B left at
6 and has no node record any more; LocalState packs left = [B] with an empty
last-seen map, and merging those bytes applies the leave of B at time 0, after
which the left member set holds B at 0 instead of 6. -/
theorem merge_of_local_state_changes_evicted :
    (LocalState exampleTypes examplePackWithHeader true exampleEvictedCluster).1
      = some [5, 7, 3, 1, 66] ∧
    exampleEvictedCluster.core.app.leftMembers = [("B", 6)] ∧
    (MergeRemoteState exampleTypes exampleCodec exampleTableHandlers [5, 7, 3, 1, 66] true
      exampleEvictedCluster).1.core.app.leftMembers = [("B", 0)] ∧
    (MergeRemoteState exampleTypes exampleCodec exampleTableHandlers [5, 7, 3, 1, 66] true
      exampleEvictedCluster).1.core.app ≠ exampleEvictedCluster.core.app :=
  ⟨by decide, by decide, by decide, by decide⟩

/-- Claim C12, amended: for a node state whose member names are distinct and in
which every left member still has its node record, marked left with a
lastMessageTime equal to its departure time, merging the bytes LocalState has
just produced (the nil slice counting as the empty buffer; the codec, where it
decodes them, giving back the left list and the entries of the last-seen map in
any order) leaves the membership table, the left member set and both queues as
they were, joins and leaves being applied by the merge rule of the table. -/
theorem merge_of_local_state_keeps_table {Tags : Type} (T : MessageTypes) (codec : Codec Tags)
    (PackWithHeader : messagePushPull → Byte → Option Bytes) (H : Handlers memberTable)
    (join isJoin : Bool) (c : Cluster Tags memberTable)
    (hk : (c.core.app.members.map Prod.fst).Nodup)
    (hrec : ∀ name d, (name, d) ∈ c.core.app.leftMembers →
      (name, { status := nodeStatus.left, lastMessageTime := d }) ∈ c.core.app.members)
    (hcodec : ∀ msg,
      codec.unpackPushPull ((LocalState T PackWithHeader join c).1.getD []).tail = some msg →
      msg.LeftMemberNames = names c.core.app.leftMembers ∧
      msg.MemberLastMessageTimes.Perm
        (c.core.app.members.map (fun e => (e.1, e.2.lastMessageTime)))) :
    (MergeRemoteState T codec (tableHandlers H)
        ((LocalState T PackWithHeader join c).1.getD []) isJoin
        (LocalState T PackWithHeader join c).2).1.core.app = c.core.app ∧
    (MergeRemoteState T codec (tableHandlers H)
        ((LocalState T PackWithHeader join c).1.getD []) isJoin
        (LocalState T PackWithHeader join c).2).1.memberMessageSendQueue
      = c.memberMessageSendQueue ∧
    (MergeRemoteState T codec (tableHandlers H)
        ((LocalState T PackWithHeader join c).1.getD []) isJoin
        (LocalState T PackWithHeader join c).2).1.requestMessageSendQueue
      = c.requestMessageSendQueue := by
  have hstate : (LocalState T PackWithHeader join c).2 = c := by
    rw [LocalState_eq_pack T PackWithHeader join c hk]
  rw [hstate]
  generalize (LocalState T PackWithHeader join c).1.getD [] = buff at hcodec ⊢
  cases buff with
  | nil => exact ⟨rfl, rfl, rfl⟩
  | cons msgType payload =>
    cases hdec : codec.unpackPushPull payload with
    | none =>
      have : MergeRemoteState T codec (tableHandlers H) (msgType :: payload) isJoin c = (c, []) := by
        simp [MergeRemoteState, hdec]
      rw [this]
      exact ⟨rfl, rfl, rfl⟩
    | some msg =>
      obtain ⟨hleft, hperm⟩ := hcodec msg hdec
      rw [MergeRemoteState_decoded T codec (tableHandlers H) msgType payload isJoin c msg hdec]
      refine ⟨?_, rfl, rfl⟩
      have hkeys : (msg.MemberLastMessageTimes.map Prod.fst).Nodup := by
        have hp := (hperm.map Prod.fst).nodup_iff
        rw [hp, List.map_map]
        exact hk
      apply foldl_replay_app (tableHandlers H) c.core.app _ _ c.core rfl
      intro call hcall core hcore
      simp only [List.mem_append] at hcall
      rcases hcall with (hcall | hcall) | hcall
      · unfold clockCalls at hcall
        split at hcall <;> split at hcall <;>
          simp only [List.append_nil, List.nil_append, List.mem_cons, List.mem_singleton,
            List.not_mem_nil, or_false, List.singleton_append] at hcall
        · rcases hcall with rfl | rfl <;> exact hcore
        · subst hcall; exact hcore
        · subst hcall; exact hcore
      · simp only [leaveCalls, List.mem_map] at hcall
        obtain ⟨name, hname, rfl⟩ := hcall
        rw [hleft] at hname
        obtain ⟨e, he, rfl⟩ := List.mem_map.mp hname
        have he2 : (e.1, e.2) ∈ c.core.app.leftMembers := he
        have hin : (e.1, e.2) ∈ msg.MemberLastMessageTimes := by
          rw [hperm.mem_iff]
          exact List.mem_map.mpr ⟨_, hrec e.1 e.2 he2, rfl⟩
        rw [mapIndex_of_mem _ e.1 e.2 hkeys hin]
        exact operateNodeLeave_recorded c.core.app hk hrec e.1 e.2 he2 core hcore
      · simp only [joinCalls, List.mem_map, List.mem_filter, decide_eq_true_eq] at hcall
        obtain ⟨e, ⟨he, hnot⟩, rfl⟩ := hcall
        rw [hperm.mem_iff] at he
        obtain ⟨x, hx, hxe⟩ := List.mem_map.mp he
        rw [hleft] at hnot
        subst hxe
        exact operateNodeJoin_recorded c.core.app hk x.1 x.2 hx hnot core hcore

/-- Witness for the amended C12: in the example table B left at 6 and is on
record as left at 6, C is alive since 2; the bytes of LocalState decode in the
example codec and merging them leaves the table as it was. -/
theorem merge_of_local_state_keeps_table_witness :
    (LocalState exampleTypes examplePackWithHeader true exampleTableCluster).1
      = some [5, 7, 3, 1, 66, 67, 2, 66, 6] ∧
    exampleCodec.unpackPushPull [7, 3, 1, 66, 67, 2, 66, 6] =
      some { MemberClockTime := 7, RequestClockTime := 3,
             MemberLastMessageTimes := [("C", 2), ("B", 6)], LeftMemberNames := ["B"] } ∧
    (MergeRemoteState exampleTypes exampleCodec (tableHandlers exampleTableHandlers)
        ((LocalState exampleTypes examplePackWithHeader true exampleTableCluster).1.getD []) true
        (LocalState exampleTypes examplePackWithHeader true exampleTableCluster).2).1.core.app
      = exampleTableCluster.core.app := by
  refine ⟨by decide, by decide, ?_⟩
  refine (merge_of_local_state_keeps_table exampleTypes exampleCodec examplePackWithHeader
    exampleTableHandlers true true exampleTableCluster (by decide) ?_ ?_).1
  · intro name d h
    have h2 : (name, d) = ("B", 6) := by simpa [exampleTableCluster] using h
    cases h2
    decide
  · intro msg h
    have hb : ((LocalState exampleTypes examplePackWithHeader true exampleTableCluster).1.getD
        []).tail = [7, 3, 1, 66, 67, 2, 66, 6] := by decide
    have hd : exampleCodec.unpackPushPull [7, 3, 1, 66, 67, 2, 66, 6] =
      some { MemberClockTime := 7, RequestClockTime := 3,
             MemberLastMessageTimes := [("C", 2), ("B", 6)], LeftMemberNames := ["B"] } := by
      decide
    rw [hb, hd] at h
    cases h
    exact ⟨by decide, by decide⟩

end cluster

namespace common

/-! ## The model of strconv round-trips -/

/-- A digit character is read back as its digit. -/
theorem digitVal_digitChar (d : Nat) (h : d < 10) : digitVal (digitChar d) = some d := by
  interval_cases d <;> decide

/-- The character of a non-zero digit is not the character 0. -/
theorem digitChar_ne_zero (d : Nat) (h1 : 1 ≤ d) (h : d < 10) : digitChar d ≠ '0' := by
  interval_cases d <;> decide

/-- Reading the decimal digits written for n, starting from 0, arrives at n. -/
theorem parseDigits_formatDigits (maxVal : Nat) (hmax : maxVal < 18446744073709551616) :
    ∀ (fuel n : Nat) (acc : List Char), n < 10 ^ fuel → n ≤ maxVal →
      parseDigits 10 maxVal (formatDigits 10 fuel n acc) 0 = parseDigits 10 maxVal acc n := by
  intro fuel
  induction fuel with
  | zero =>
    intro n acc hn _
    have : n = 0 := by simpa using hn
    subst this
    rfl
  | succ fuel ih =>
    intro n acc hn hle
    by_cases hlt : n < 10
    · have hd := digitVal_digitChar n hlt
      have h1 : ¬ (n ≥ 10) := by omega
      have h2 : ¬ (n ≥ 18446744073709551616 ∨ n > maxVal) := by omega
      simp only [formatDigits, hlt, if_true, parseDigits, hd, h1, if_false, Nat.zero_mul,
        Nat.zero_add, h2]
      simp
    · have hdiv : n / 10 < 10 ^ fuel := by
        rw [Nat.div_lt_iff_lt_mul (by decide)]
        rw [pow_succ] at hn
        exact hn
      have hdle : n / 10 ≤ maxVal := le_trans (Nat.div_le_self n 10) hle
      have hmod : n % 10 < 10 := Nat.mod_lt n (by decide)
      have hd := digitVal_digitChar (n % 10) hmod
      have hsum : n / 10 * 10 + n % 10 = n := Nat.div_add_mod' n 10
      have h1 : ¬ (n % 10 ≥ 10) := by omega
      have h2 : ¬ (n / 10 ≥ 18446744073709551615 / 10 + 1) := by omega
      have h3 : ¬ (n ≥ 18446744073709551616 ∨ n > maxVal) := by omega
      simp only [formatDigits, hlt, if_false]
      rw [ih (n / 10) _ hdiv hdle]
      simp only [parseDigits, hd, h1, h2, if_false, hsum, h3]

/-- The decimal digits written for a non-zero n start with a non-zero digit. -/
theorem formatDigits_head : ∀ (fuel n : Nat) (acc : List Char), 1 ≤ n → n < 10 ^ fuel →
    ∃ d rest, 1 ≤ d ∧ d < 10 ∧ formatDigits 10 fuel n acc = digitChar d :: rest := by
  intro fuel
  induction fuel with
  | zero =>
    intro n acc h1 hn
    simp at hn
    omega
  | succ fuel ih =>
    intro n acc h1 hn
    by_cases hlt : n < 10
    · exact ⟨n, acc, h1, hlt, by simp [formatDigits, hlt]⟩
    · have hdiv : n / 10 < 10 ^ fuel := by
        rw [Nat.div_lt_iff_lt_mul (by decide)]
        rw [pow_succ] at hn
        exact hn
      have hge : 1 ≤ n / 10 := by omega
      obtain ⟨d, rest, hd1, hd2, heq⟩ := ih (n / 10) (digitChar (n % 10) :: acc) hge hdiv
      exact ⟨d, rest, hd1, hd2, by simp only [formatDigits, hlt, if_false, heq]⟩

/-- A string that does not start with the character 0 is read in base 10. -/
theorem detectBase_of_ne (c : Char) (rest : List Char) (h : c ≠ '0') :
    detectBase (c :: rest) = (10, c :: rest) := by
  unfold detectBase
  split
  · next heq => simp only [List.cons.injEq] at heq; exact absurd heq.1 h
  · next heq => simp only [List.cons.injEq] at heq; exact absurd heq.1 h
  · rfl

/-- The model of strconv parses with base 0 what it formats in base 10, for
every value that fits in the bit size. -/
theorem goStrconv_round_trip (v bitSize : Nat) (hb : 1 ≤ bitSize) (hb2 : bitSize ≤ 64)
    (hv : v < 2 ^ bitSize) :
    goStrconv.ParseUint (goStrconv.FormatUint v 10) 0 bitSize = some v := by
  have hpow : 2 ^ bitSize ≤ 18446744073709551616 := by
    have := Nat.pow_le_pow_right (by decide : 1 ≤ 2) hb2
    simpa using this
  have hpos : 0 < 2 ^ bitSize := by positivity
  have hmax : 2 ^ bitSize - 1 < 18446744073709551616 := by omega
  have hfuel : v < 10 ^ 64 := by
    have : (18446744073709551616 : Nat) ≤ 10 ^ 64 := by norm_num
    omega
  have hb0 : ¬ bitSize = 0 := by omega
  have hb64 : ¬ 64 < bitSize := by omega
  show goParseUint (goFormatUint v 10) 0 bitSize = some v
  by_cases hz : v = 0
  · subst hz
    have hs : (goFormatUint 0 10).toList = ['0'] := by decide
    simp only [goParseUint, hs, hb0, hb64, if_false]
    simp [detectBase, parseDigits]
  · have h1 : 1 ≤ v := by omega
    obtain ⟨d, rest, hd1, hd2, heq⟩ := formatDigits_head 64 v [] h1 hfuel
    have hs : (goFormatUint v 10).toList = digitChar d :: rest := heq
    have hne : (goFormatUint v 10).toList ≠ [] := by rw [hs]; simp
    have hdet := detectBase_of_ne (digitChar d) rest (digitChar_ne_zero d hd1 hd2)
    have hres : parseDigits 10 (2 ^ bitSize - 1) (digitChar d :: rest) 0 = some v := by
      rw [← heq, parseDigits_formatDigits _ hmax 64 v [] hfuel (by omega)]
      rfl
    have hcons : ¬ (digitChar d :: rest = []) := by simp
    simp only [goParseUint, hs, hcons, hb0, hb64, if_false, if_true, hdet, hres]

/-! ## Set and String of the option values -/

/-- One Set call on a receiver holding a value within its bounds leaves it
holding a value within the same bounds. -/
theorem Set_keeps_range (S : Strconv) (i : Uint64RangeValue) (cur : Nat) (s : String)
    (hv : i.v = some cur) (hlo : i.min ≤ cur) (hhi : cur ≤ i.max) :
    ∃ w, ((Uint64RangeValue.Set S i s).receiver i).v = some w ∧
      ((Uint64RangeValue.Set S i s).receiver i).min = i.min ∧
      ((Uint64RangeValue.Set S i s).receiver i).max = i.max ∧ i.min ≤ w ∧ w ≤ i.max := by
  unfold Uint64RangeValue.Set
  cases S.ParseUint s 0 64 with
  | none => exact ⟨cur, hv, rfl, rfl, hlo, hhi⟩
  | some v =>
    by_cases hr : v < i.min ∨ v > i.max
    · simp only [hr, if_true]
      exact ⟨cur, hv, rfl, rfl, hlo, hhi⟩
    · simp only [hr, if_false, hv]
      exact ⟨v, rfl, rfl, rfl, by omega, by omega⟩

/-- Claim C16: for a Uint64RangeValue holding a value (its pointer set, as
NewUint64RangeValue builds it) and every string s, Set(s) returns nil exactly
when s parses as an unsigned 64-bit integer v with min <= v <= max; then the
stored value becomes v and the bounds stay; otherwise an error is returned and
the receiver is unchanged; hence a stored value within the bounds stays within
them over any sequence of Set calls. -/
theorem Set_accepts_exactly_in_range (S : Strconv) (i : Uint64RangeValue) (cur : Nat)
    (hv : i.v = some cur) :
    (∀ s, (∃ after, Uint64RangeValue.Set S i s = SetOutcome.returned none after) ↔
      ∃ v, S.ParseUint s 0 64 = some v ∧ i.min ≤ v ∧ v ≤ i.max) ∧
    (∀ s v, S.ParseUint s 0 64 = some v → i.min ≤ v → v ≤ i.max →
      Uint64RangeValue.Set S i s = SetOutcome.returned none { i with v := some v }) ∧
    (∀ s, (¬ ∃ v, S.ParseUint s 0 64 = some v ∧ i.min ≤ v ∧ v ≤ i.max) →
      ∃ e, Uint64RangeValue.Set S i s = SetOutcome.returned (some e) i) ∧
    (i.min ≤ cur → cur ≤ i.max → ∀ ss, ∃ w,
      (Uint64RangeValue.SetAll S i ss).v = some w ∧ i.min ≤ w ∧ w ≤ i.max ∧
      (Uint64RangeValue.SetAll S i ss).min = i.min ∧
      (Uint64RangeValue.SetAll S i ss).max = i.max) := by
  have hok : ∀ s v, S.ParseUint s 0 64 = some v → i.min ≤ v → v ≤ i.max →
      Uint64RangeValue.Set S i s = SetOutcome.returned none { i with v := some v } := by
    intro s v hp hlo hhi
    have hr : ¬ (v < i.min ∨ v > i.max) := by omega
    simp only [Uint64RangeValue.Set, hp, hr, if_false, hv]
  have herr : ∀ s, (¬ ∃ v, S.ParseUint s 0 64 = some v ∧ i.min ≤ v ∧ v ≤ i.max) →
      ∃ e, Uint64RangeValue.Set S i s = SetOutcome.returned (some e) i := by
    intro s hno
    unfold Uint64RangeValue.Set
    cases hp : S.ParseUint s 0 64 with
    | none => exact ⟨SetError.parse, rfl⟩
    | some v =>
      have hr : v < i.min ∨ v > i.max := by
        by_contra hcon
        exact hno ⟨v, hp, by omega, by omega⟩
      exact ⟨SetError.outOfRange i.min i.max, by simp only [hr, if_true]⟩
  refine ⟨?_, hok, herr, ?_⟩
  · intro s
    constructor
    · rintro ⟨after, hset⟩
      by_contra hno
      obtain ⟨e, he⟩ := herr s hno
      rw [he] at hset
      cases hset
    · rintro ⟨v, hp, hlo, hhi⟩
      exact ⟨_, hok s v hp hlo hhi⟩
  · intro hlo hhi ss
    suffices h : ∀ (ss : List String) (j : Uint64RangeValue) (w : Nat), j.v = some w →
        j.min = i.min → j.max = i.max → i.min ≤ w → w ≤ i.max →
        ∃ w2, (Uint64RangeValue.SetAll S j ss).v = some w2 ∧ i.min ≤ w2 ∧ w2 ≤ i.max ∧
          (Uint64RangeValue.SetAll S j ss).min = i.min ∧
          (Uint64RangeValue.SetAll S j ss).max = i.max from
      h ss i cur hv rfl rfl hlo hhi
    intro ss
    induction ss with
    | nil =>
      intro j w hj hmin hmx h1 h2
      exact ⟨w, hj, h1, h2, hmin, hmx⟩
    | cons s rest ih =>
      intro j w hj hmin hmx h1 h2
      obtain ⟨w2, hw2, hmin2, hmx2, hlo2, hhi2⟩ :=
        Set_keeps_range S j w s hj (by omega) (by omega)
      simp only [Uint64RangeValue.SetAll, List.foldl_cons]
      exact ih _ w2 hw2 (hmin2.trans hmin) (hmx2.trans hmx) (by omega) (by omega)

/-- Witness for C16: a value built with bounds 1 and 10 holding 5 accepts the
string 7 and then holds 7, and refuses 11 and abc, still holding 5. -/
theorem Set_accepts_exactly_in_range_witness :
    (NewUint64RangeValue 5 none 1 10).v = some 5 ∧
    Uint64RangeValue.Set goStrconv (NewUint64RangeValue 5 none 1 10) "7" =
      SetOutcome.returned none { v := some 7, min := 1, max := 10 } ∧
    (∃ e, Uint64RangeValue.Set goStrconv (NewUint64RangeValue 5 none 1 10) "11" =
      SetOutcome.returned (some e) (NewUint64RangeValue 5 none 1 10)) ∧
    (∃ w, (Uint64RangeValue.SetAll goStrconv (NewUint64RangeValue 5 none 1 10)
        ["7", "11", "abc"]).v = some w ∧ 1 ≤ w ∧ w ≤ 10) := by
  have h := Set_accepts_exactly_in_range goStrconv (NewUint64RangeValue 5 none 1 10) 5 rfl
  refine ⟨rfl, h.2.1 "7" 7 (by decide) (by decide) (by decide), ?_, ?_⟩
  · apply h.2.2.1 "11"
    rintro ⟨v, hp, -, hhi⟩
    have h11 : goStrconv.ParseUint "11" 0 64 = some 11 := by decide
    rw [h11] at hp
    cases hp
    exact absurd hhi (by decide)
  · obtain ⟨w, hw, hlo, hhi, -, -⟩ := h.2.2.2 (by decide) (by decide) ["7", "11", "abc"]
    exact ⟨w, hw, hlo, hhi⟩

/-- Claim C17: with a strconv whose ParseUint with base 0 reads back what its
FormatUint writes in base 10 (for values that fit in 16 and in 64 bits), Set of
String on a Uint16Value holding any 16-bit value v returns nil and leaves it
holding v, and Set of String on a Uint64RangeValue holding a 64-bit value v
with min <= v <= max returns nil and leaves it holding v. -/
theorem Set_String_round_trip (S : Strconv)
    (h16 : ∀ v, v < 65536 → S.ParseUint (S.FormatUint v 10) 0 16 = some v)
    (h64 : ∀ v, v < 18446744073709551616 → S.ParseUint (S.FormatUint v 10) 0 64 = some v) :
    (∀ v, v < 65536 →
      Uint16Value.Set S { val := v } (Uint16Value.String S { val := v })
        = (none, { val := v })) ∧
    (∀ (i : Uint64RangeValue) (v : Nat), i.v = some v → v < 18446744073709551616 →
      i.min ≤ v → v ≤ i.max →
      Uint64RangeValue.Set S i (Uint64RangeValue.String S i) = SetOutcome.returned none i) := by
  constructor
  · intro v hv
    simp only [Uint16Value.Set, Uint16Value.String, h16 v hv, Nat.mod_eq_of_lt hv]
  · intro i v hiv hv hlo hhi
    have hr : ¬ (v < i.min ∨ v > i.max) := by omega
    have hi : ({ i with v := some v } : Uint64RangeValue) = i := by
      cases i
      simp only at hiv
      subst hiv
      rfl
    simp only [Uint64RangeValue.Set, Uint64RangeValue.String, hiv, h64 v hv, hr, if_false, hi]

/-- Witness for C17: the model of strconv meets the round-trip contract; a
Uint16Value holding 8080 and a Uint64RangeValue built with bounds 1 and 10
holding 5 are left as they were by Set of String. -/
theorem Set_String_round_trip_witness :
    Uint16Value.String goStrconv { val := 8080 } = "8080" ∧
    Uint16Value.Set goStrconv { val := 8080 } (Uint16Value.String goStrconv { val := 8080 })
      = (none, { val := 8080 }) ∧
    Uint64RangeValue.Set goStrconv (NewUint64RangeValue 5 none 1 10)
        (Uint64RangeValue.String goStrconv (NewUint64RangeValue 5 none 1 10))
      = SetOutcome.returned none (NewUint64RangeValue 5 none 1 10) :=
  ⟨by decide,
   (Set_String_round_trip goStrconv
      (fun v hv => goStrconv_round_trip v 16 (by decide) (by decide) (by simpa using hv))
      (fun v hv => goStrconv_round_trip v 64 (by decide) (by decide) (by simpa using hv))).1
      8080 (by decide),
   (Set_String_round_trip goStrconv
      (fun v hv => goStrconv_round_trip v 16 (by decide) (by decide) (by simpa using hv))
      (fun v hv => goStrconv_round_trip v 64 (by decide) (by decide) (by simpa using hv))).2
      (NewUint64RangeValue 5 none 1 10) 5 rfl (by decide) (by decide) (by decide)⟩

end common
